import Mathlib

/-!
# Verification of `pbir_tools` (`pbir_handler.py`)

A shallow embedding of the `PBIRHandler` class from
`src/pbir_tools/pbir_handler.py` and proofs of the specified properties.

The embedding models:
* JSON values (`JVal`) — Python values that round-trip through the `json`
  module: `None`, `bool`, `int`, `str`, `list`, `dict` with string keys and
  insertion order.  (Floats are outside the model; no operation of the
  repository introduces them.)
* the exact text produced by `json.dump(obj, f, indent=2, ensure_ascii=False)`
  (`dumpAt` / `jsonDumps`),
* the parser `json.loads` restricted to the integer-numeral fragment
  (`parseVal` / `jsonLoads`), including whitespace handling, string escapes
  and duplicate-key collapsing as performed by Python `dict`,
* a filesystem (`FS`) of directories and text files addressed by component
  lists, with the `pathlib` operations used by the handler (`suffix`,
  `parent`, `mkdir(parents=True, exist_ok=True)`, `open`),
* the handler itself (`PBIRHandler` with `init`, `load`, `save`,
  `createNew`, `addTable`, `getTables`, `getInfo`), with Python exceptions
  rendered as `Except` / `Option` results and the post-state returned
  explicitly.
-/

/-- Opening brace character. -/
def obrace : Char := Char.ofNat 123

/-- Closing brace character. -/
def cbrace : Char := Char.ofNat 125

/-- JSON values as handled by the Python `json` module, restricted to the
fragment without floats: `null`, booleans, integers, strings, arrays and
objects (Python `dict`s: string keys, insertion-ordered). -/
inductive JVal where
  | null : JVal
  | bool (b : Bool) : JVal
  | int (n : Int) : JVal
  | str (s : String) : JVal
  | arr (xs : List JVal) : JVal
  | obj (fields : List (String × JVal)) : JVal
deriving Repr

/-- Key lookup in an insertion-ordered association list (Python `dict`
lookup; keys are unique in any list built by `setKey`). -/
def keyFind (fields : List (String × JVal)) (k : String) : Option JVal :=
  match fields with
  | [] => none
  | (k', v) :: rest => if k' = k then some v else keyFind rest k

/-- Python `d[k] = v`: update in place if the key exists (keeping its
position), otherwise append at the end (insertion order). -/
def setKey (fields : List (String × JVal)) (k : String) (v : JVal) :
    List (String × JVal) :=
  match fields with
  | [] => [(k, v)]
  | (k', v') :: rest =>
      if k' = k then (k', v) :: rest else (k', v') :: setKey rest k v

/-- Python `d.get(k, default)` where the receiver may be any value: returns
`none` (an `AttributeError`) when the receiver is not a `dict`. -/
def pyGet (v : JVal) (k : String) (dflt : JVal) : Option JVal :=
  match v with
  | .obj fields => some ((keyFind fields k).getD dflt)
  | _ => none

/-- Python `len(v)`: defined on sequences, mappings and strings, a
`TypeError` (`none`) otherwise. -/
def pyLen : JVal → Option Nat
  | .arr xs => some xs.length
  | .obj fields => some fields.length
  | .str s => some s.toList.length
  | _ => none

/-! ## The serializer: `json.dump(v, f, indent=2, ensure_ascii=False)` -/

/-- Lowercase hexadecimal digit, as produced by Python's `'\\u{0:04x}'`. -/
def hexDigit (n : Nat) : Char :=
  if n < 10 then Char.ofNat (48 + n) else Char.ofNat (87 + n)

/-- `json.encoder` escaping of one character with `ensure_ascii=False`:
escape `"` and `\`, named escapes for the five control characters that have
them, `\u00xx` for the other control characters, everything else verbatim. -/
def escChar (c : Char) : List Char :=
  if c = '"' then ['\\', '"']
  else if c = '\\' then ['\\', '\\']
  else if c = '\n' then ['\\', 'n']
  else if c = '\t' then ['\\', 't']
  else if c = '\r' then ['\\', 'r']
  else if c = Char.ofNat 8 then ['\\', 'b']
  else if c = Char.ofNat 12 then ['\\', 'f']
  else if c.toNat < 32 then
    ['\\', 'u', '0', '0', hexDigit (c.toNat / 16), hexDigit (c.toNat % 16)]
  else [c]

/-- Escape a character list. -/
def escList : List Char → List Char
  | [] => []
  | c :: cs => escChar c ++ escList cs

/-- A JSON string literal: quote, escaped body, quote. -/
def encStr (s : String) : List Char :=
  '"' :: (escList s.toList ++ ['"'])

/-- Decimal digits of a natural number, accumulator form with explicit
fuel (any `fuel ≥ n` yields all digits of `n` prepended to `acc`). -/
def natDecAux : Nat → Nat → List Char → List Char
  | 0, _, acc => acc
  | fuel + 1, n, acc =>
      if n = 0 then acc
      else natDecAux fuel (n / 10) (Char.ofNat (48 + n % 10) :: acc)

/-- Decimal representation of a natural number (Python `str(n)`). -/
def natDec (n : Nat) : List Char :=
  if n = 0 then ['0'] else natDecAux n n []

/-- Decimal representation of an integer (Python `str(i)`). -/
def intDec : Int → List Char
  | .ofNat n => natDec n
  | .negSucc m => '-' :: natDec (m + 1)

/-- Indentation at depth `d`: `2 * d` spaces (`indent=2`). -/
def indC (d : Nat) : List Char := List.replicate (2 * d) ' '

mutual
/-- The exact characters written by `json.dump(v, f, indent=2,
ensure_ascii=False)` for a value nested at depth `d`. -/
def dumpAt : Nat → JVal → List Char
  | _, .null => ['n', 'u', 'l', 'l']
  | _, .bool true => ['t', 'r', 'u', 'e']
  | _, .bool false => ['f', 'a', 'l', 's', 'e']
  | _, .int n => intDec n
  | _, .str s => encStr s
  | _, .arr [] => ['[', ']']
  | d, .arr (x :: xs) =>
      '[' :: '\n' :: (indC (d + 1) ++ dumpItems (d + 1) (x :: xs) ++
        '\n' :: (indC d ++ [']']))
  | _, .obj [] => [obrace, cbrace]
  | d, .obj (p :: fields) =>
      obrace :: '\n' :: (indC (d + 1) ++ dumpFields (d + 1) (p :: fields) ++
        '\n' :: (indC d ++ [cbrace]))

/-- The items of a non-empty array, separated by `,\n` plus indentation. -/
def dumpItems : Nat → List JVal → List Char
  | _, [] => []
  | d, [x] => dumpAt d x
  | d, x :: y :: xs =>
      dumpAt d x ++ ',' :: '\n' :: (indC d ++ dumpItems d (y :: xs))

/-- The entries of a non-empty object: `"key": value`, separated by `,\n`
plus indentation. -/
def dumpFields : Nat → List (String × JVal) → List Char
  | _, [] => []
  | d, [(k, v)] => encStr k ++ ':' :: ' ' :: dumpAt d v
  | d, (k, v) :: p :: fields =>
      encStr k ++ ':' :: ' ' :: dumpAt d v ++
        ',' :: '\n' :: (indC d ++ dumpFields d (p :: fields))
end

/-- The file content produced by `json.dump(v, f, indent=2,
ensure_ascii=False)` (no trailing newline). -/
def jsonDumps (v : JVal) : String := String.mk (dumpAt 0 v)


/-! ## The parser: `json.loads` (integer-numeral fragment) -/

/-- JSON whitespace (`json.decoder.WHITESPACE`): space, tab, newline,
carriage return. -/
def isWsChar (c : Char) : Bool :=
  c = ' ' || c = '\t' || c = '\n' || c = '\r'

/-- Drop leading JSON whitespace. -/
def skipWs : List Char → List Char
  | [] => []
  | c :: cs => if isWsChar c then skipWs cs else c :: cs

/-- Value of a hexadecimal digit (either case accepted, as in `\uXXXX`). -/
def hexVal (c : Char) : Option Nat :=
  if '0' ≤ c ∧ c ≤ '9' then some (c.toNat - 48)
  else if 'a' ≤ c ∧ c ≤ 'f' then some (c.toNat - 87)
  else if 'A' ≤ c ∧ c ≤ 'F' then some (c.toNat - 55)
  else none

/-- Body of a JSON string literal after the opening quote (`strict=True`:
raw control characters are rejected); `acc` holds the decoded characters in
reverse.  Fuel `≥` input length suffices. -/
def parseStrBody : Nat → List Char → List Char → Option (String × List Char)
  | 0, _, _ => none
  | _ + 1, [], _ => none
  | fuel + 1, c :: cs, acc =>
    if c = '"' then some (String.mk acc.reverse, cs)
    else if c = '\\' then
      match cs with
      | [] => none
      | e :: cs' =>
        if e = '"' then parseStrBody fuel cs' ('"' :: acc)
        else if e = '\\' then parseStrBody fuel cs' ('\\' :: acc)
        else if e = '/' then parseStrBody fuel cs' ('/' :: acc)
        else if e = 'b' then parseStrBody fuel cs' (Char.ofNat 8 :: acc)
        else if e = 'f' then parseStrBody fuel cs' (Char.ofNat 12 :: acc)
        else if e = 'n' then parseStrBody fuel cs' ('\n' :: acc)
        else if e = 'r' then parseStrBody fuel cs' ('\r' :: acc)
        else if e = 't' then parseStrBody fuel cs' ('\t' :: acc)
        else if e = 'u' then
          match cs' with
          | h1 :: h2 :: h3 :: h4 :: rest =>
            match hexVal h1, hexVal h2, hexVal h3, hexVal h4 with
            | some a, some b, some c1, some c0 =>
                parseStrBody fuel rest
                  (Char.ofNat (a * 4096 + b * 256 + c1 * 16 + c0) :: acc)
            | _, _, _, _ => none
          | _ => none
        else none
    else if c.toNat < 32 then none
    else parseStrBody fuel cs (c :: acc)

/-- Numeric value of a list of decimal digit characters. -/
def digitsVal (ds : List Char) : Nat :=
  ds.foldl (fun n c => 10 * n + (c.toNat - 48)) 0

/-- Finish a number after its integer part: a following `.`/`e`/`E` would
start a float literal, which is outside the model. -/
def numFinish (neg : Bool) (n : Nat) (r : List Char) :
    Option (JVal × List Char) :=
  let v : JVal := .int (if neg then -(n : Int) else (n : Int))
  match r with
  | [] => some (v, [])
  | c :: _ => if c = '.' ∨ c = 'e' ∨ c = 'E' then none else some (v, r)

/-- A JSON number (`-?(0|[1-9][0-9]*)`, maximal munch, no leading zeros),
starting at the first character. -/
def parseNumber (cs : List Char) : Option (JVal × List Char) :=
  let p := match cs with
           | [] => (false, cs)
           | c :: r => if c = '-' then (true, r) else (false, cs)
  match p.2 with
  | [] => none
  | c :: r =>
    if c = '0' then numFinish p.1 0 r
    else if c.isDigit then
      numFinish p.1 (digitsVal (c :: r.takeWhile (·.isDigit)))
        (r.dropWhile (·.isDigit))
    else none

mutual
/-- Parse one JSON value starting at a non-whitespace character; returns
the value and the unconsumed remainder.  Fuel bounds the nesting/looping;
`jsonLoads` supplies enough for any input it accepts. -/
def parseVal : Nat → List Char → Option (JVal × List Char)
  | 0, _ => none
  | _ + 1, [] => none
  | fuel + 1, c :: cs =>
    if c = '"' then
      (parseStrBody cs.length cs []).map fun p => (JVal.str p.1, p.2)
    else if c = obrace then
      match skipWs cs with
      | [] => none
      | c' :: r =>
          if c' = cbrace then some (.obj [], r)
          else parseObjItems fuel (c' :: r) []
    else if c = '[' then
      match skipWs cs with
      | [] => none
      | c' :: r =>
          if c' = ']' then some (.arr [], r)
          else parseArrItems fuel (c' :: r) []
    else if c = 'n' then
      match cs with
      | 'u' :: 'l' :: 'l' :: r => some (.null, r)
      | _ => none
    else if c = 't' then
      match cs with
      | 'r' :: 'u' :: 'e' :: r => some (.bool true, r)
      | _ => none
    else if c = 'f' then
      match cs with
      | 'a' :: 'l' :: 's' :: 'e' :: r => some (.bool false, r)
      | _ => none
    else if c = '-' || c.isDigit then parseNumber (c :: cs)
    else none

/-- Array items after `[` (first item's first character already reached);
`acc` holds the items parsed so far. -/
def parseArrItems : Nat → List Char → List JVal → Option (JVal × List Char)
  | 0, _, _ => none
  | fuel + 1, cs, acc =>
    match parseVal fuel cs with
    | none => none
    | some (v, r) =>
      match skipWs r with
      | [] => none
      | c :: r' =>
        if c = ',' then parseArrItems fuel (skipWs r') (acc ++ [v])
        else if c = ']' then some (.arr (acc ++ [v]), r')
        else none

/-- Object entries after `ob` (first key's opening quote already reached);
`acc` holds the entries parsed so far; a repeated key overwrites in place
as Python `dict` assignment does. -/
def parseObjItems : Nat → List Char →
    List (String × JVal) → Option (JVal × List Char)
  | 0, _, _ => none
  | fuel + 1, cs, acc =>
    match cs with
    | '"' :: cs' =>
      match parseStrBody cs'.length cs' [] with
      | none => none
      | some (k, r) =>
        match skipWs r with
        | ':' :: r' =>
          match parseVal fuel (skipWs r') with
          | none => none
          | some (v, r2) =>
            match skipWs r2 with
            | [] => none
            | c :: r3 =>
              if c = ',' then parseObjItems fuel (skipWs r3) (setKey acc k v)
              else if c = cbrace then some (.obj (setKey acc k v), r3)
              else none
        | _ => none
    | _ => none
end

/-- `json.loads`: skip leading whitespace, parse one value, require only
whitespace afterwards ("Extra data" otherwise). -/
def jsonLoads (s : String) : Option JVal :=
  let cs := skipWs s.toList
  match parseVal (cs.length + 1) cs with
  | some (v, r) => if skipWs r = [] then some v else none
  | none => none


/-! ## Filesystem model

Paths are lists of components (`pathlib.Path` with the operations the
handler uses: `/`, `name`, `suffix`, `parent`, `exists`, `is_dir`).  A
filesystem maps paths to entries; the empty path is the implicit root
directory. -/

/-- A filesystem path, as its list of components. -/
abbrev FPath := List String

/-- A filesystem entry: a directory or a text file. -/
inductive Entry where
  | dir : Entry
  | file (content : String) : Entry
deriving DecidableEq, Repr

/-- A filesystem: an association of paths to entries (first match wins). -/
abbrev FS := List (FPath × Entry)

/-- Entry at a path, if any (`Path.exists` / `Path.is_dir` / reading). -/
def FS.find : FS → FPath → Option Entry
  | [], _ => none
  | (q, e) :: rest, p => if q = p then some e else FS.find rest p

/-- Remove any entry at a path. -/
def FS.erase : FS → FPath → FS
  | [], _ => []
  | (q, e) :: rest, p =>
      if q = p then FS.erase rest p else (q, e) :: FS.erase rest p

/-- Replace (or create) the entry at a path. -/
def FS.set (fs : FS) (p : FPath) (e : Entry) : FS :=
  (p, e) :: fs.erase p

/-- `pathlib.Path.suffix != ''`: the final component has a dot that is
neither its first nor its last character. -/
def hasFileSuffix (name : String) : Bool :=
  let cs := name.toList.reverse
  let k := cs.takeWhile (fun c => decide (c ≠ '.'))
  if k.length = cs.length then false
  else decide (0 < k.length) && decide (k.length < cs.length - 1)


/-- The non-empty prefixes of a path, shortest first. -/
def prefixesOf (p : FPath) : List FPath :=
  (List.range p.length).map fun i => p.take (i + 1)

/-- Walk the prefixes top-down as `os.makedirs` does: skip existing
directories, create missing ones, stop (keeping what was created so far)
when a prefix exists as a file. -/
def mkdirpGo : FS → List FPath → FS × Bool
  | fs, [] => (fs, true)
  | fs, q :: qs =>
    match FS.find fs q with
    | some .dir => mkdirpGo fs qs
    | some (.file _) => (fs, false)
    | none => mkdirpGo (FS.set fs q .dir) qs

/-- `Path.mkdir(parents=True, exist_ok=True)`. -/
def mkdirp (fs : FS) (p : FPath) : FS × Bool :=
  mkdirpGo fs (prefixesOf p)

/-- `open(p, 'w')` + write: fails (filesystem unchanged) when `p` is an
existing directory or its parent is not an existing directory. -/
def writeFile (fs : FS) (p : FPath) (c : String) : FS × Bool :=
  match FS.find fs p with
  | some .dir => (fs, false)
  | _ =>
    match p with
    | [] => (fs, false)
    | _ :: _ =>
      if p.dropLast = [] then (FS.set fs p (.file c), true)
      else
        match FS.find fs p.dropLast with
        | some .dir => (FS.set fs p (.file c), true)
        | _ => (fs, false)

/-! ## The handler: `PBIRHandler` -/

/-- Python exceptions raised by the handler. -/
inductive PErr where
  | fileNotFound : PErr
  | jsonDecodeError : PErr
  | valueError : PErr
  | osError : PErr
deriving DecidableEq, Repr

/-- The state of a `PBIRHandler` object: `self.path` and `self.metadata`. -/
structure PBIRHandler where
  path : Option FPath
  metadata : JVal
deriving Repr

/-- `PBIRHandler._create_default_metadata`. -/
def defaultMetadata : JVal :=
  .obj [("version", .str "1.0"),
        ("datamodel", .obj [("tables", .arr []), ("relationships", .arr [])]),
        ("reports", .arr []),
        ("settings", .obj [])]

/-- Fixed filename looked up inside a directory-style path. -/
def definitionName : String := "definition.pbir"

/-- `PBIRHandler.load`: returns the raised exception or the returned
metadata, together with the post-call object state (unchanged whenever an
exception is raised). -/
def PBIRHandler.load (h : PBIRHandler) (fs : FS) :
    Except PErr JVal × PBIRHandler :=
  match h.path with
  | none => (.error .fileNotFound, h)
  | some p =>
    match FS.find fs p with
    | none => (.error .fileNotFound, h)
    | some .dir =>
      match FS.find fs (p ++ [definitionName]) with
      | some (.file c) =>
        match jsonLoads c with
        | some v => (.ok v, { h with metadata := v })
        | none => (.error .jsonDecodeError, h)
      | some .dir => (.error .osError, h)
      | none => (.ok defaultMetadata, { h with metadata := defaultMetadata })
    | some (.file c) =>
      match jsonLoads c with
      | some v => (.ok v, { h with metadata := v })
      | none => (.error .jsonDecodeError, h)

/-- `PBIRHandler.__init__`: store the path, start with empty metadata and
eagerly `load()` when the path exists. -/
def PBIRHandler.init (path : Option FPath) (fs : FS) :
    Except PErr PBIRHandler :=
  let h : PBIRHandler := ⟨path, .obj []⟩
  match path with
  | none => .ok h
  | some p =>
    if (FS.find fs p).isSome then
      match h.load fs with
      | (.ok _, h') => .ok h'
      | (.error e, _) => .error e
    else .ok h

/-- The `save_path` resolution of `save`: `output_path` if given, else
the stored path. -/
def effTarget (h : PBIRHandler) (out : Option FPath) : Option FPath :=
  match out with
  | some p => some p
  | none => h.path

/-- `PBIRHandler.save`: resolve the effective target, classify it by
suffix, create missing directories, and write the serialized metadata;
returns the post-call filesystem (partial directory creation persists on
failure, exactly as `os.makedirs` leaves it). -/
def PBIRHandler.save (h : PBIRHandler) (out : Option FPath) (fs : FS) :
    Except PErr PBIRHandler × FS :=
  match effTarget h out with
  | none => (.error .valueError, fs)
  | some sp =>
    let content := jsonDumps h.metadata
    if hasFileSuffix (sp.getLast?.getD "") then
      -- a file target: create the parent directories, write directly
      let md := mkdirp fs sp.dropLast
      if md.2 then
        let w := writeFile md.1 sp content
        if w.2 then (.ok h, w.1) else (.error .osError, w.1)
      else (.error .osError, md.1)
    else
      -- a directory target: create it, write the fixed filename inside
      let md := mkdirp fs sp
      if md.2 then
        let w := writeFile md.1 (sp ++ [definitionName]) content
        if w.2 then (.ok h, w.1) else (.error .osError, w.1)
      else (.error .osError, md.1)

/-- `PBIRHandler.create_new`. -/
def PBIRHandler.createNew (h : PBIRHandler) (name description : String) :
    PBIRHandler :=
  let fresh : JVal :=
    .obj [("version", .str "1.0"),
          ("name", .str name),
          ("description", .str description),
          ("datamodel",
            .obj [("tables", .arr []), ("relationships", .arr [])]),
          ("reports", .arr []),
          ("settings", .obj [("culture", .str "en-US")])]
  { h with metadata := fresh }

/-- `PBIRHandler.add_table`: synthesize `datamodel` when the key is
absent, then append `{name, columns or []}` to `datamodel["tables"]`;
`none` models the exception Python raises when the lookups or the
`.append` fail (`KeyError`, `TypeError`, `AttributeError`). -/
def PBIRHandler.addTable (h : PBIRHandler) (tableName : String)
    (columns : Option (List JVal)) : Option PBIRHandler :=
  match h.metadata with
  | .obj m =>
    let m1 := if (keyFind m "datamodel").isSome then m
              else setKey m "datamodel"
                (.obj [("tables", .arr []), ("relationships", .arr [])])
    let table : JVal :=
      .obj [("name", .str tableName), ("columns", .arr (columns.getD []))]
    match keyFind m1 "datamodel" with
    | some (.obj dm) =>
      match keyFind dm "tables" with
      | some (.arr ts) =>
          let md : JVal :=
            .obj (setKey m1 "datamodel"
              (.obj (setKey dm "tables" (.arr (ts ++ [table])))))
          some { h with metadata := md }
      | _ => none
    | _ => none
  | _ => none

/-- `PBIRHandler.get_tables`: `metadata.get("datamodel", {}).get("tables",
[])`; `none` models the `AttributeError` when an intermediate value is not
a `dict`. -/
def PBIRHandler.getTables (h : PBIRHandler) : Option JVal :=
  (pyGet h.metadata "datamodel" (.obj [])).bind fun dm =>
    pyGet dm "tables" (.arr [])

/-- `PBIRHandler.get_info`: the four-entry summary mapping; `none` models
the exception when `metadata` is not a `dict` or `len(get_tables())` is
undefined. -/
def PBIRHandler.getInfo (h : PBIRHandler) : Option JVal :=
  match pyGet h.metadata "name" (.str "Unknown"),
        pyGet h.metadata "version" (.str "Unknown"),
        pyGet h.metadata "description" (.str ""),
        h.getTables with
  | some nm, some ver, some desc, some ts =>
    match pyLen ts with
    | some n =>
        some (.obj [("name", nm), ("version", ver), ("description", desc),
                    ("table_count", .int (n : Int))])
    | none => none
  | _, _, _, _ => none

/-! ## Definitions used in the statements of the properties -/


/-- The invariant claimed of the Document: `datamodel` is a mapping whose
`tables` and `relationships` are both present as sequences. -/
def hasDatamodelSeqs (v : JVal) : Bool :=
  match v with
  | .obj m =>
    match keyFind m "datamodel" with
    | some (.obj dm) =>
      (match keyFind dm "tables" with
       | some (.arr _) => true
       | _ => false) &&
      (match keyFind dm "relationships" with
       | some (.arr _) => true
       | _ => false)
    | _ => false
  | _ => false

/-- Document shapes on which the accessors cannot raise: a mapping whose
`datamodel`, when present, is a mapping whose `tables`, when present, is a
sequence. -/
def accessorSafe (v : JVal) : Bool :=
  match v with
  | .obj m =>
    match keyFind m "datamodel" with
    | none => true
    | some (.obj dm) =>
      match keyFind dm "tables" with
      | none => true
      | some (.arr _) => true
      | some _ => false
    | some _ => false
  | _ => false

/-- Run a sequence of `add_table` calls (name and optional columns each). -/
def applyTables (h : PBIRHandler)
    (ops : List (String × Option (List JVal))) : Option PBIRHandler :=
  ops.foldl (fun acc op => acc.bind fun h' => h'.addTable op.1 op.2) (some h)

/-- Pairwise-distinct keys (what holds of every Python `dict` by
construction). -/
def keysNodupB : List (String × JVal) → Bool
  | [] => true
  | (k, _) :: fs => fs.all (fun r => decide (r.1 ≠ k)) && keysNodupB fs

mutual
/-- A JSON value all of whose objects have pairwise-distinct keys — the
image of actual Python values (`dict` keys are unique), on which
serialization is injective. -/
def wfKeys : JVal → Bool
  | .null => true
  | .bool _ => true
  | .int _ => true
  | .str _ => true
  | .arr xs => wfItems xs
  | .obj fs => keysNodupB fs && wfFields fs

/-- `wfKeys` on every element. -/
def wfItems : List JVal → Bool
  | [] => true
  | x :: xs => wfKeys x && wfItems xs

/-- `wfKeys` on every value. -/
def wfFields : List (String × JVal) → Bool
  | [] => true
  | (_, v) :: fs => wfKeys v && wfFields fs
end

mutual
/-- Structural size used to discharge the parser's fuel: bounded by the
length of the serialized form. -/
def fsize : JVal → Nat
  | .null => 1
  | .bool _ => 1
  | .int _ => 1
  | .str _ => 1
  | .arr xs => 1 + fsizeItems xs
  | .obj fs => 1 + fsizeFields fs

/-- Size of array items. -/
def fsizeItems : List JVal → Nat
  | [] => 0
  | x :: xs => 1 + fsize x + fsizeItems xs

/-- Size of object entries. -/
def fsizeFields : List (String × JVal) → Nat
  | [] => 0
  | (_, v) :: fs => 1 + fsize v + fsizeFields fs
end

/-- Remainders the serializer can leave after a value: end of input, a
separating comma, or the newline before a closing bracket.  None of these
can extend a numeral. -/
def restOk (rest : List Char) : Prop :=
  match rest with
  | [] => True
  | c :: _ => c = ',' ∨ c = '\n'

/-- A decimal digit character, with its value exposed. -/
def isDigitCh (c : Char) : Prop := ∃ k, k < 10 ∧ c = Char.ofNat (48 + k)

/-- The characters that can start a serialized JSON value. -/
def valueStart (c : Char) : Prop :=
  c = '"' ∨ c = obrace ∨ c = '[' ∨ c = 'n' ∨ c = 't' ∨ c = 'f' ∨
    c = '-' ∨ isDigitCh c

/-- The shape invariant maintained by `create_new` and `add_table`: the
Document is a mapping with a `datamodel` mapping holding a `tables`
sequence, and every object in it has distinct keys. -/
def docInv (h : PBIRHandler) : Prop :=
  wfKeys h.metadata = true ∧
  ∃ m dm ts, h.metadata = .obj m ∧
    keyFind m "datamodel" = some (.obj dm) ∧
    keyFind dm "tables" = some (.arr ts)

/-! ## Basic lemmas -/

theorem save_ok_handler {h : PBIRHandler} {out : Option FPath} {fs : FS}
    {h' : PBIRHandler} {fs' : FS}
    (hs : h.save out fs = (.ok h', fs')) : h' = h := by
  simp only [PBIRHandler.save] at hs
  split at hs
  · simp at hs
  · split at hs
    · split at hs
      · split at hs
        · simp at hs
          exact hs.1.symm
        · simp at hs
      · simp at hs
    · split at hs
      · split at hs
        · simp at hs
          exact hs.1.symm
        · simp at hs
      · simp at hs

/-! ## C7: saving to an explicit path does not change the remembered path -/

/-- C7: for every store and explicit `output_path`, a successful
`save(output_path)` leaves the store's remembered path unchanged, so a
subsequent path-less `save()` behaves exactly as it would have before. -/
theorem save_explicit_path_frame (h : PBIRHandler) (q : FPath) (fs : FS)
    (h' : PBIRHandler) (fs' : FS)
    (hs : h.save (some q) fs = (.ok h', fs')) :
    h'.path = h.path ∧ ∀ fs₂ : FS, h'.save none fs₂ = h.save none fs₂ := by
  have hh : h' = h := save_ok_handler hs
  subst hh
  exact ⟨rfl, fun _ => rfl⟩

/-- Witness for C7 at a concrete store, target and filesystem. -/
theorem save_explicit_path_frame_witness :
    (⟨some ["a"], .obj []⟩ : PBIRHandler).path =
        (⟨some ["a"], .obj []⟩ : PBIRHandler).path ∧
      ∀ fs₂ : FS, (⟨some ["a"], .obj []⟩ : PBIRHandler).save none fs₂ =
        (⟨some ["a"], .obj []⟩ : PBIRHandler).save none fs₂ :=
  save_explicit_path_frame ⟨some ["a"], .obj []⟩ ["b"] []
    ⟨some ["a"], .obj []⟩
    ((⟨some ["a"], .obj []⟩ : PBIRHandler).save (some ["b"]) []).2 rfl

/-! ## C8: path-less store, argument-less save -/

/-- C8: a store with no remembered path, asked to `save()` with no
argument, raises the `ValueError` and leaves the filesystem untouched. -/
theorem save_no_destination (h : PBIRHandler) (fs : FS)
    (hp : h.path = none) :
    h.save none fs = (.error .valueError, fs) := by
  simp [PBIRHandler.save, effTarget, hp]

/-- Witness for C8 at a concrete path-less store. -/
theorem save_no_destination_witness :
    (⟨none, .obj []⟩ : PBIRHandler).save none [] =
      (.error .valueError, []) :=
  save_no_destination ⟨none, .obj []⟩ [] rfl

/-! ## C4: NotFound on unset/nonexistent path; failed loads change nothing -/

/-- C4: `load()` on a store whose path is unset or names no filesystem
entry fails with `FileNotFoundError`, and every failed `load()` (of any
error kind) returns the object with its metadata exactly as before. -/
theorem load_notFound_and_frame :
    (∀ (h : PBIRHandler) (fs : FS),
      (h.path = none ∨ ∃ p, h.path = some p ∧ FS.find fs p = none) →
      h.load fs = (.error .fileNotFound, h)) ∧
    (∀ (h : PBIRHandler) (fs : FS) (e : PErr) (h₂ : PBIRHandler),
      h.load fs = (.error e, h₂) → h₂ = h) := by
  constructor
  · rintro h fs (hp | ⟨p, hp, hf⟩)
    · simp [PBIRHandler.load, hp]
    · simp [PBIRHandler.load, hp, hf]
  · intro h fs e h₂ hL
    simp only [PBIRHandler.load] at hL
    split at hL <;> (try split at hL) <;> (try split at hL) <;>
      (try split at hL) <;> simp_all

/-- Witness for C4 at a concrete nonexistent path and a concrete
malformed-content failure. -/
theorem load_notFound_and_frame_witness :
    (⟨some ["gone"], .obj []⟩ : PBIRHandler).load [] =
        (.error .fileNotFound, ⟨some ["gone"], .obj []⟩) ∧
      (⟨none, .int 7⟩ : PBIRHandler) = ⟨none, .int 7⟩ :=
  ⟨load_notFound_and_frame.1 ⟨some ["gone"], .obj []⟩ []
      (Or.inr ⟨["gone"], rfl, rfl⟩),
    load_notFound_and_frame.2 ⟨none, .int 7⟩ [] .fileNotFound
      ⟨none, .int 7⟩ rfl⟩

/-! ## C10: construction with an existing path eagerly loads and can raise -/

/-- C10: constructing the handler with a path that exists and resolves to
a file — directly, or through `definition.pbir` inside a directory — whose
content is not valid JSON raises the JSON parse error from the
constructor itself. -/
theorem init_on_malformed_content :
    (∀ (p : FPath) (c : String) (fs : FS),
      FS.find fs p = some (.file c) → jsonLoads c = none →
      PBIRHandler.init (some p) fs = .error .jsonDecodeError) ∧
    (∀ (p : FPath) (c : String) (fs : FS),
      FS.find fs p = some .dir →
      FS.find fs (p ++ [definitionName]) = some (.file c) →
      jsonLoads c = none →
      PBIRHandler.init (some p) fs = .error .jsonDecodeError) := by
  constructor
  · intro p c fs hf hj
    simp [PBIRHandler.init, PBIRHandler.load, hf, hj]
  · intro p c fs hd hf hj
    simp [PBIRHandler.init, PBIRHandler.load, hd, hf, hj]

/-- Witness for C10: a direct file and a directory-contained
`definition.pbir`, both holding the non-JSON text of a lone brace. -/
theorem init_on_malformed_content_witness :
    PBIRHandler.init (some ["bad.json"])
        [(["bad.json"], .file "\x7b")] = .error .jsonDecodeError ∧
      PBIRHandler.init (some ["d"])
        [(["d"], .dir), (["d", "definition.pbir"], .file "\x7b")] =
        .error .jsonDecodeError :=
  ⟨init_on_malformed_content.1 ["bad.json"] "\x7b"
      [(["bad.json"], .file "\x7b")] rfl rfl,
    init_on_malformed_content.2 ["d"] "\x7b"
      [(["d"], .dir), (["d", "definition.pbir"], .file "\x7b")]
      rfl rfl rfl⟩

/-! ## setKey / keyFind algebra -/

theorem keyFind_setKey_self (m : List (String × JVal)) (k : String)
    (v : JVal) : keyFind (setKey m k v) k = some v := by
  induction m with
  | nil => simp [setKey, keyFind]
  | cons p rest ih =>
    obtain ⟨k', v'⟩ := p
    simp only [setKey]
    split
    · simp_all [keyFind]
    · simp_all [keyFind]

theorem setKey_setKey_self (m : List (String × JVal)) (k : String)
    (v w : JVal) : setKey (setKey m k v) k w = setKey m k w := by
  induction m with
  | nil => simp [setKey]
  | cons p rest ih =>
    obtain ⟨k', v'⟩ := p
    simp only [setKey]
    split
    · simp_all [setKey]
    · simp_all [setKey]

/-! ## C2: the datamodel invariant (corrected) -/

/-- C2 counterexample: loading the valid JSON text of an empty mapping
succeeds, and the resulting in-memory Document contains no
`datamodel.tables`/`datamodel.relationships` at all. -/
theorem datamodel_invariant_counterexample :
    (⟨some ["m.json"], .int 0⟩ : PBIRHandler).load
        [(["m.json"], .file "\x7b\x7d")] =
      (.ok (.obj []), ⟨some ["m.json"], .obj []⟩) ∧
    hasDatamodelSeqs (JVal.obj []) = false :=
  ⟨rfl, rfl⟩

/-- C2 amended: `create_new` and a `load` that synthesized the default
document always establish `datamodel.tables`/`datamodel.relationships` as
sequences; a `load` that parsed explicit JSON content installs exactly the
parsed value, so the invariant holds only when the content carries it. -/
theorem datamodel_invariant_amended :
    (∀ (h : PBIRHandler) (name desc : String),
      hasDatamodelSeqs ((h.createNew name desc).metadata) = true) ∧
    (∀ (h : PBIRHandler) (p : FPath) (fs : FS),
      h.path = some p → FS.find fs p = some .dir →
      FS.find fs (p ++ [definitionName]) = none →
      h.load fs = (.ok defaultMetadata, { h with metadata := defaultMetadata })
        ∧ hasDatamodelSeqs defaultMetadata = true) ∧
    (∀ (h h₂ : PBIRHandler) (fs : FS) (v : JVal),
      h.load fs = (.ok v, h₂) → h₂.metadata = v) := by
  refine ⟨fun h name desc => rfl, fun h p fs hp hd hf => ?_, ?_⟩
  · constructor
    · simp [PBIRHandler.load, hp, hd, hf]
    · rfl
  · intro h h₂ fs v hL
    simp only [PBIRHandler.load] at hL
    split at hL <;> (try split at hL) <;> (try split at hL) <;>
      (try split at hL) <;> (try (simp_all; done)) <;>
      (simp only [Prod.mk.injEq, Except.ok.injEq] at hL;
        obtain ⟨hv, hh⟩ := hL; subst hh; simpa using hv)

/-- Witness for the amended C2 at concrete stores and filesystems. -/
theorem datamodel_invariant_amended_witness :
    hasDatamodelSeqs (((⟨none, .obj []⟩ : PBIRHandler).createNew
        "N" "D").metadata) = true ∧
      ((⟨some ["d"], .int 5⟩ : PBIRHandler).load [(["d"], .dir)] =
          (.ok defaultMetadata, ⟨some ["d"], defaultMetadata⟩)
        ∧ hasDatamodelSeqs defaultMetadata = true) ∧
      (⟨some ["d"], defaultMetadata⟩ : PBIRHandler).metadata =
        defaultMetadata :=
  ⟨datamodel_invariant_amended.1 ⟨none, .obj []⟩ "N" "D",
    datamodel_invariant_amended.2.1 ⟨some ["d"], .int 5⟩ ["d"]
      [(["d"], .dir)] rfl rfl rfl,
    datamodel_invariant_amended.2.2 ⟨some ["d"], .int 5⟩
      ⟨some ["d"], defaultMetadata⟩ [(["d"], .dir)] defaultMetadata rfl⟩

/-! ## C3: accessor totality (corrected) -/

/-- C3 counterexample: on the Document `\x7b"datamodel": null\x7d` — a
mapping, reachable by loading that JSON text — both accessors raise
(`.get` on `None`, i.e. an `AttributeError`), so they do not succeed for
every Document shape. -/
theorem accessor_totality_counterexample :
    (⟨none, .obj [("datamodel", .null)]⟩ : PBIRHandler).getTables = none ∧
    (⟨none, .obj [("datamodel", .null)]⟩ : PBIRHandler).getInfo = none :=
  ⟨rfl, rfl⟩

/-- C3 amended: the accessors never fail on any Document that is a
mapping whose `datamodel`, when present, is a mapping whose `tables`,
when present, is a sequence; on the entirely empty mapping they return
the empty sequence and the fully defaulted info mapping. -/
theorem accessor_totality_amended :
    (∀ h : PBIRHandler, accessorSafe h.metadata = true →
      (h.getTables).isSome = true ∧ (h.getInfo).isSome = true) ∧
    (∀ h : PBIRHandler, h.metadata = .obj [] →
      h.getTables = some (.arr []) ∧
      h.getInfo = some (.obj [("name", .str "Unknown"),
        ("version", .str "Unknown"), ("description", .str ""),
        ("table_count", .int 0)])) := by
  constructor
  · intro h hsafe
    unfold accessorSafe at hsafe
    split at hsafe
    case h_2 => simp at hsafe
    case h_1 m heq =>
      split at hsafe
      case h_1 hdm =>
        simp [PBIRHandler.getTables, PBIRHandler.getInfo, pyGet, pyLen,
          keyFind, heq, hdm]
      case h_2 dm hdm =>
        split at hsafe
        case h_1 hts =>
          simp [PBIRHandler.getTables, PBIRHandler.getInfo, pyGet, pyLen,
            keyFind, heq, hdm, hts]
        case h_2 ts hts =>
          simp [PBIRHandler.getTables, PBIRHandler.getInfo, pyGet, pyLen,
            keyFind, heq, hdm, hts]
        case h_3 => simp at hsafe
      case h_3 => simp at hsafe
  · intro h hm
    constructor
    · simp [PBIRHandler.getTables, pyGet, hm, keyFind]
    · simp [PBIRHandler.getInfo, PBIRHandler.getTables, pyGet, pyLen, hm,
        keyFind]

/-- Witness for the amended C3 at a concrete safe Document and at the
empty mapping. -/
theorem accessor_totality_amended_witness :
    ((⟨none, defaultMetadata⟩ : PBIRHandler).getTables.isSome = true ∧
      (⟨none, defaultMetadata⟩ : PBIRHandler).getInfo.isSome = true) ∧
    ((⟨none, .obj []⟩ : PBIRHandler).getTables = some (.arr []) ∧
      (⟨none, .obj []⟩ : PBIRHandler).getInfo =
        some (.obj [("name", .str "Unknown"), ("version", .str "Unknown"),
          ("description", .str ""), ("table_count", .int 0)])) :=
  ⟨accessor_totality_amended.1 ⟨none, defaultMetadata⟩ rfl,
    accessor_totality_amended.2 ⟨none, .obj []⟩ rfl⟩

/-! ## C9: add_table synthesizes a missing datamodel but not missing tables -/

/-- C9: `add_table` succeeds — appending `\x7bname, columns-or-empty\x7d`
to `datamodel.tables` — when the Document mapping lacks `datamodel`
entirely (synthesizing it first) or carries a `datamodel` mapping with a
`tables` sequence; yet on a Document whose `datamodel` mapping has no
`tables` key it raises (`KeyError`) instead of synthesizing the missing
sequence. -/
theorem addTable_cases :
    (∀ (h : PBIRHandler) (m : List (String × JVal)) (tn : String)
        (cols : Option (List JVal)),
      h.metadata = .obj m → keyFind m "datamodel" = none →
      h.addTable tn cols = some (PBIRHandler.mk h.path
        (.obj (setKey m "datamodel" (.obj [("tables", .arr
          [.obj [("name", .str tn), ("columns", .arr (cols.getD []))]]),
          ("relationships", .arr [])]))))) ∧
    (∀ (h : PBIRHandler) (m dm : List (String × JVal)) (ts : List JVal)
        (tn : String) (cols : Option (List JVal)),
      h.metadata = .obj m → keyFind m "datamodel" = some (.obj dm) →
      keyFind dm "tables" = some (.arr ts) →
      h.addTable tn cols = some (PBIRHandler.mk h.path
        (.obj (setKey m "datamodel" (.obj (setKey dm "tables" (.arr (ts ++
          [.obj [("name", .str tn), ("columns", .arr (cols.getD []))]])))))))) ∧
    (⟨none, .obj [("datamodel", .obj [])]⟩ : PBIRHandler).addTable "T" none
      = none := by
  refine ⟨?_, ?_, rfl⟩
  · intro h m tn cols hm hdm
    simp only [PBIRHandler.addTable, hm, hdm, Option.isSome_none,
      Bool.false_eq_true, if_false, keyFind_setKey_self, setKey_setKey_self]
    rfl
  · intro h m dm ts tn cols hm hdm hts
    simp only [PBIRHandler.addTable, hm, hdm, hts, Option.isSome_some,
      if_true]

/-- Witness for C9 at concrete Documents: one lacking `datamodel`, one
with an empty `tables` sequence. -/
theorem addTable_cases_witness :
    (⟨none, .obj []⟩ : PBIRHandler).addTable "T" none =
        some ⟨none, .obj [("datamodel", .obj [("tables", .arr
          [.obj [("name", .str "T"), ("columns", .arr [])]]),
          ("relationships", .arr [])])]⟩ ∧
      (⟨none, .obj [("datamodel", .obj [("tables", .arr []),
          ("relationships", .arr [])])]⟩ : PBIRHandler).addTable "U"
          (some [.str "c"]) =
        some ⟨none, .obj [("datamodel", .obj [("tables", .arr
          [.obj [("name", .str "U"), ("columns", .arr [.str "c"])]]),
          ("relationships", .arr [])])]⟩ :=
  ⟨addTable_cases.1 ⟨none, .obj []⟩ [] "T" none rfl rfl,
    addTable_cases.2.1 ⟨none, .obj [("datamodel", .obj [("tables", .arr []),
        ("relationships", .arr [])])]⟩
      [("datamodel", .obj [("tables", .arr []), ("relationships", .arr [])])]
      [("tables", .arr []), ("relationships", .arr [])] [] "U"
      (some [.str "c"]) rfl rfl rfl⟩

/-! ## Filesystem lemmas -/

theorem FS.find_set_self (fs : FS) (p : FPath) (e : Entry) :
    (fs.set p e).find p = some e := by
  simp [FS.set, FS.find]

theorem FS.find_erase_ne (fs : FS) (p q : FPath) (hne : q ≠ p) :
    (fs.erase p).find q = fs.find q := by
  induction fs with
  | nil => rfl
  | cons r rest ih =>
    obtain ⟨q', e'⟩ := r
    simp only [FS.erase]
    by_cases hq' : q' = p
    · rw [if_pos hq', ih]
      have hnq : ¬ q' = q := by
        rw [hq']
        exact Ne.symm hne
      simp [FS.find, if_neg hnq]
    · rw [if_neg hq']
      by_cases hqq : q' = q
      · simp [FS.find, if_pos hqq]
      · simp only [FS.find, if_neg hqq]
        exact ih

theorem FS.find_set_ne (fs : FS) (p q : FPath) (e : Entry) (hne : q ≠ p) :
    (fs.set p e).find q = fs.find q := by
  simp only [FS.set, FS.find, if_neg (by simpa using Ne.symm hne)]
  exact FS.find_erase_ne fs p q hne

theorem mkdirpGo_preserves (qs : List FPath) (fs : FS) (q : FPath)
    (e : Entry) (hf : fs.find q = some e) :
    (mkdirpGo fs qs).1.find q = some e := by
  induction qs generalizing fs with
  | nil => exact hf
  | cons q' qs ih =>
    simp only [mkdirpGo]
    rcases hfind : fs.find q' with _ | e'
    · simp only [hfind]
      apply ih
      rw [FS.find_set_ne]
      · exact hf
      · rintro rfl
        rw [hf] at hfind
        cases hfind
    · cases e'
      · simp only [hfind]
        exact ih fs hf
      · simp only [hfind]
        exact hf

theorem mkdirpGo_dirs (qs : List FPath) (fs fs' : FS)
    (hmk : mkdirpGo fs qs = (fs', true)) :
    ∀ q ∈ qs, fs'.find q = some .dir := by
  induction qs generalizing fs with
  | nil =>
    intro q hq
    cases hq
  | cons q' qs ih =>
    intro q hq
    simp only [mkdirpGo] at hmk
    split at hmk
    · next heq =>
        rcases List.mem_cons.mp hq with rfl | hq2
        · have := mkdirpGo_preserves qs fs q .dir heq
          rwa [hmk] at this
        · exact ih fs hmk q hq2
    · next c heq => simp at hmk
    · next heq =>
        rcases List.mem_cons.mp hq with rfl | hq2
        · have := mkdirpGo_preserves qs (fs.set q .dir) q .dir
            (FS.find_set_self fs q .dir)
          rwa [hmk] at this
        · exact ih _ hmk q hq2

theorem mkdirpGo_noop (qs : List FPath) (fs : FS)
    (hall : ∀ q ∈ qs, fs.find q = some .dir) :
    mkdirpGo fs qs = (fs, true) := by
  induction qs with
  | nil => rfl
  | cons q' qs ih =>
    simp only [mkdirpGo]
    rw [hall q' (List.mem_cons_self q' qs)]
    exact ih fun q hq => hall q (List.mem_cons_of_mem q' hq)

theorem writeFile_ok (fs : FS) (p : FPath) (c : String) (fs' : FS)
    (hw : writeFile fs p c = (fs', true)) :
    fs' = fs.set p (.file c) := by
  simp only [writeFile] at hw
  split at hw
  · cases hw
  · split at hw
    · cases hw
    · split at hw
      · exact ((Prod.mk.injEq ..).mp hw).1.symm
      · split at hw
        · exact ((Prod.mk.injEq ..).mp hw).1.symm
        · cases hw

theorem writeFile_succeeds (fs : FS) (p : FPath) (c : String)
    (hdir : fs.find p ≠ some .dir)
    (hne : p ≠ [])
    (hpar : p.dropLast = [] ∨ fs.find p.dropLast = some .dir) :
    writeFile fs p c = (fs.set p (.file c), true) := by
  match p, hne with
  | p₀ :: ps, _ =>
    simp only [writeFile]
    rcases hfind : fs.find (p₀ :: ps) with _ | e
    · by_cases hdl : (p₀ :: ps).dropLast = []
      · simp [hdl]
      · have hd := hpar.resolve_left hdl
        simp [hdl, hd]
    · cases e
      · exact absurd hfind hdir
      · by_cases hdl : (p₀ :: ps).dropLast = []
        · simp [hdl]
        · have hd := hpar.resolve_left hdl
          simp [hdl, hd]

theorem FS.erase_cons_self (fs : FS) (p : FPath) (e : Entry) :
    FS.erase ((p, e) :: fs) p = FS.erase fs p := by
  simp [FS.erase]

theorem FS.erase_erase (fs : FS) (p : FPath) :
    FS.erase (FS.erase fs p) p = FS.erase fs p := by
  induction fs with
  | nil => rfl
  | cons r rest ih =>
    obtain ⟨q, e⟩ := r
    by_cases hq : q = p
    · simp [FS.erase, hq, ih]
    · simp [FS.erase, hq, ih]

theorem FS.set_set_self (fs : FS) (p : FPath) (e : Entry) :
    (fs.set p e).set p e = fs.set p e := by
  simp [FS.set, FS.erase_cons_self, FS.erase_erase]

theorem mem_prefixesOf_length {q r : FPath} (hq : q ∈ prefixesOf r) :
    q.length ≤ r.length := by
  rcases List.mem_map.mp hq with ⟨i, _, rfl⟩
  simp [List.length_take]

theorem self_mem_prefixesOf {r : FPath} (hr : r ≠ []) :
    r ∈ prefixesOf r := by
  apply List.mem_map.mpr
  refine ⟨r.length - 1, ?_, ?_⟩
  · apply List.mem_range.mpr
    have : 0 < r.length := List.length_pos.mpr hr
    omega
  · have : 0 < r.length := List.length_pos.mpr hr
    rw [show r.length - 1 + 1 = r.length from by omega]
    simp

theorem hasFileSuffix_of_nil :
    hasFileSuffix ((([] : FPath)).getLast?.getD "") = false := rfl

/-- Decomposition of a successful `save` into its effective target, the
branch taken, the directory creation and the write. -/
theorem save_ok_decomp (h : PBIRHandler) (out : Option FPath)
    (fs fs' : FS) (h' : PBIRHandler)
    (hs : h.save out fs = (.ok h', fs')) :
    h' = h ∧ ∃ sp fs₁, effTarget h out = some sp ∧
      ((hasFileSuffix (sp.getLast?.getD "") = true ∧
          mkdirp fs sp.dropLast = (fs₁, true) ∧
          writeFile fs₁ sp (jsonDumps h.metadata) = (fs', true)) ∨
       (hasFileSuffix (sp.getLast?.getD "") = false ∧
          mkdirp fs sp = (fs₁, true) ∧
          writeFile fs₁ (sp ++ [definitionName]) (jsonDumps h.metadata) =
            (fs', true))) := by
  simp only [PBIRHandler.save] at hs
  rcases hsp : effTarget h out with _ | sp
  · rw [hsp] at hs
    simp at hs
  · rw [hsp] at hs
    simp only [] at hs
    by_cases hsuf : hasFileSuffix (sp.getLast?.getD "") = true
    · rw [if_pos hsuf] at hs
      rcases hmd : mkdirp fs sp.dropLast with ⟨fs₁, b⟩
      rw [hmd] at hs
      cases b
      · simp at hs
      · simp only [] at hs
        rcases hw : writeFile fs₁ sp (jsonDumps h.metadata) with ⟨fs₂, b₂⟩
        rw [hw] at hs
        cases b₂
        · simp at hs
        · simp only [Prod.mk.injEq, Except.ok.injEq, if_true] at hs
          refine ⟨hs.1.symm, sp, fs₁, rfl, Or.inl ⟨hsuf, hmd, ?_⟩⟩
          rw [hw, hs.2]
    · rw [if_neg hsuf] at hs
      rcases hmd : mkdirp fs sp with ⟨fs₁, b⟩
      rw [hmd] at hs
      cases b
      · simp at hs
      · simp only [] at hs
        rcases hw : writeFile fs₁ (sp ++ [definitionName])
          (jsonDumps h.metadata) with ⟨fs₂, b₂⟩
        rw [hw] at hs
        cases b₂
        · simp at hs
        · simp only [Prod.mk.injEq, Except.ok.injEq, if_true] at hs
          refine ⟨hs.1.symm, sp, fs₁, rfl,
            Or.inr ⟨Bool.not_eq_true _ ▸ hsuf, hmd, ?_⟩⟩
          rw [hw, hs.2]

/-! ## C5: destination-kind resolution of save -/

/-- C5: whenever `save` succeeds on effective target `sp`: if `sp`'s name
has no file-extension-like suffix, `sp` and all its missing parents now
exist as directories and the JSON text sits in `definition.pbir` inside
it; otherwise the parents of `sp` exist as directories and the JSON text
sits directly at `sp`. -/
theorem save_destination_resolution (h : PBIRHandler) (out : Option FPath)
    (fs fs' : FS) (h' : PBIRHandler) (sp : FPath)
    (hsp : effTarget h out = some sp)
    (hs : h.save out fs = (.ok h', fs')) :
    (hasFileSuffix (sp.getLast?.getD "") = true →
      FS.find fs' sp = some (.file (jsonDumps h.metadata)) ∧
      ∀ q ∈ prefixesOf sp.dropLast, FS.find fs' q = some .dir) ∧
    (hasFileSuffix (sp.getLast?.getD "") = false →
      FS.find fs' (sp ++ [definitionName]) =
        some (.file (jsonDumps h.metadata)) ∧
      ∀ q ∈ prefixesOf sp, FS.find fs' q = some .dir) := by
  obtain ⟨hh, sp', fs₁, hsp', hbr⟩ := save_ok_decomp h out fs fs' h' hs
  rw [hsp] at hsp'
  injection hsp' with hspe
  subst hspe
  rcases hbr with ⟨hsuf, hmd, hw⟩ | ⟨hsuf, hmd, hw⟩
  · constructor
    · intro _
      have hfs' := writeFile_ok _ _ _ _ hw
      subst hfs'
      refine ⟨FS.find_set_self .., ?_⟩
      intro q hq
      have hlen := mem_prefixesOf_length hq
      have hne : sp ≠ [] := by
        intro h0
        rw [h0] at hsuf
        rw [hasFileSuffix_of_nil] at hsuf
        cases hsuf
      have hpos : 0 < sp.length := List.length_pos.mpr hne
      have hdl := List.length_dropLast sp
      rw [FS.find_set_ne]
      · simp only [mkdirp] at hmd
        exact mkdirpGo_dirs _ _ _ hmd q hq
      · intro he
        rw [he] at hlen
        omega
    · intro hsuf'
      rw [hsuf] at hsuf'
      cases hsuf'
  · constructor
    · intro hsuf'
      rw [hsuf] at hsuf'
      cases hsuf'
    · intro _
      have hfs' := writeFile_ok _ _ _ _ hw
      subst hfs'
      refine ⟨FS.find_set_self .., ?_⟩
      intro q hq
      have hlen := mem_prefixesOf_length hq
      have htl : (sp ++ [definitionName]).length = sp.length + 1 := by
        simp
      rw [FS.find_set_ne]
      · simp only [mkdirp] at hmd
        exact mkdirpGo_dirs _ _ _ hmd q hq
      · intro he
        rw [he] at hlen
        omega

/-- Witness for C5 at a concrete store saving to the suffix-less target
`o` on an empty filesystem. -/
theorem save_destination_resolution_witness :
    (hasFileSuffix ((["o"] : FPath).getLast?.getD "") = true →
      FS.find (((⟨none, .obj []⟩ : PBIRHandler).save (some ["o"]) []).2)
          ["o"] = some (.file (jsonDumps (JVal.obj []))) ∧
      ∀ q ∈ prefixesOf (["o"] : FPath).dropLast,
        FS.find (((⟨none, .obj []⟩ : PBIRHandler).save (some ["o"]) []).2)
          q = some .dir) ∧
    (hasFileSuffix ((["o"] : FPath).getLast?.getD "") = false →
      FS.find (((⟨none, .obj []⟩ : PBIRHandler).save (some ["o"]) []).2)
          (["o"] ++ [definitionName]) =
        some (.file (jsonDumps (JVal.obj []))) ∧
      ∀ q ∈ prefixesOf (["o"] : FPath),
        FS.find (((⟨none, .obj []⟩ : PBIRHandler).save (some ["o"]) []).2)
          q = some .dir) :=
  save_destination_resolution ⟨none, .obj []⟩ (some ["o"]) []
    ((⟨none, .obj []⟩ : PBIRHandler).save (some ["o"]) []).2
    ⟨none, .obj []⟩ ["o"] rfl rfl

/-! ## C6: saving twice writes byte-identical content -/

/-- C6: a second `save` to the same destination with no mutation in
between succeeds and leaves the filesystem exactly as the first left it —
in particular the bytes written at the destination are identical. -/
theorem save_idempotent (h : PBIRHandler) (out : Option FPath)
    (fs fs₁ : FS) (h' : PBIRHandler)
    (hs : h.save out fs = (.ok h', fs₁)) :
    h.save out fs₁ = (.ok h', fs₁) := by
  obtain ⟨hh, sp, fs₀, hsp, hbr⟩ := save_ok_decomp h out fs fs₁ h' hs
  rw [hh]
  rcases hbr with ⟨hsuf, hmd, hw⟩ | ⟨hsuf, hmd, hw⟩
  · have hfs₁ := writeFile_ok _ _ _ _ hw
    have hne : sp ≠ [] := by
      intro h0
      rw [h0] at hsuf
      rw [hasFileSuffix_of_nil] at hsuf
      cases hsuf
    have hpos : 0 < sp.length := List.length_pos.mpr hne
    have hdirs : ∀ q ∈ prefixesOf sp.dropLast, fs₁.find q = some .dir := by
      intro q hq
      have hlen := mem_prefixesOf_length hq
      have hdl := List.length_dropLast sp
      rw [hfs₁, FS.find_set_ne]
      · simp only [mkdirp] at hmd
        exact mkdirpGo_dirs _ _ _ hmd q hq
      · intro he
        rw [he] at hlen
        omega
    have hfind : fs₁.find sp = some (.file (jsonDumps h.metadata)) := by
      rw [hfs₁]
      exact FS.find_set_self ..
    have hmd2 : mkdirp fs₁ sp.dropLast = (fs₁, true) := by
      simp only [mkdirp]
      exact mkdirpGo_noop _ _ hdirs
    have hw2 : writeFile fs₁ sp (jsonDumps h.metadata) = (fs₁, true) := by
      rw [writeFile_succeeds fs₁ sp (jsonDumps h.metadata)
        (by rw [hfind]; intro hc; cases hc) hne ?_]
      · rw [hfs₁, FS.set_set_self]
      · by_cases hdl : sp.dropLast = []
        · exact Or.inl hdl
        · exact Or.inr (hdirs sp.dropLast (self_mem_prefixesOf hdl))
    simp only [PBIRHandler.save]
    rw [hsp]
    simp only [if_pos hsuf, hmd2, hw2]
    simp
  · have hfs₁ := writeFile_ok _ _ _ _ hw
    have hdirs : ∀ q ∈ prefixesOf sp, fs₁.find q = some .dir := by
      intro q hq
      have hlen := mem_prefixesOf_length hq
      have htl : (sp ++ [definitionName]).length = sp.length + 1 := by
        simp
      rw [hfs₁, FS.find_set_ne]
      · simp only [mkdirp] at hmd
        exact mkdirpGo_dirs _ _ _ hmd q hq
      · intro he
        rw [he] at hlen
        omega
    have hfind : fs₁.find (sp ++ [definitionName]) =
        some (.file (jsonDumps h.metadata)) := by
      rw [hfs₁]
      exact FS.find_set_self ..
    have hmd2 : mkdirp fs₁ sp = (fs₁, true) := by
      simp only [mkdirp]
      exact mkdirpGo_noop _ _ hdirs
    have hw2 : writeFile fs₁ (sp ++ [definitionName])
        (jsonDumps h.metadata) = (fs₁, true) := by
      rw [writeFile_succeeds fs₁ (sp ++ [definitionName])
        (jsonDumps h.metadata) (by rw [hfind]; intro hc; cases hc)
        (by simp) ?_]
      · rw [hfs₁, FS.set_set_self]
      · rw [List.dropLast_concat]
        by_cases hsp0 : sp = []
        · exact Or.inl hsp0
        · exact Or.inr (hdirs sp (self_mem_prefixesOf hsp0))
    simp only [PBIRHandler.save]
    rw [hsp]
    simp only [hsuf, Bool.false_eq_true, if_false, hmd2, hw2]
    simp

/-- Witness for C6: the concrete first save of C5's witness, saved
again. -/
theorem save_idempotent_witness :
    (⟨none, .obj []⟩ : PBIRHandler).save (some ["o"])
        (((⟨none, .obj []⟩ : PBIRHandler).save (some ["o"]) []).2) =
      (.ok ⟨none, .obj []⟩,
        ((⟨none, .obj []⟩ : PBIRHandler).save (some ["o"]) []).2) :=
  save_idempotent ⟨none, .obj []⟩ (some ["o"]) []
    ((⟨none, .obj []⟩ : PBIRHandler).save (some ["o"]) []).2
    ⟨none, .obj []⟩ rfl

/-! ## Whitespace lemmas -/

theorem skipWs_cons_not {c : Char} (z : List Char)
    (h : isWsChar c = false) : skipWs (c :: z) = c :: z := by
  simp [skipWs, h]

theorem skipWs_cons_ws {c : Char} (z : List Char)
    (h : isWsChar c = true) : skipWs (c :: z) = skipWs z := by
  simp [skipWs, h]

theorem skipWs_replicate (m : Nat) (z : List Char) :
    skipWs (List.replicate m ' ' ++ z) = skipWs z := by
  induction m with
  | zero => simp
  | succ m ih =>
    rw [List.replicate_succ, List.cons_append, skipWs_cons_ws _ (by decide)]
    exact ih

theorem skipWs_indC (k : Nat) (z : List Char) :
    skipWs (indC k ++ z) = skipWs z :=
  skipWs_replicate (2 * k) z

theorem skipWs_nl_indC (k : Nat) (z : List Char) :
    skipWs ('\n' :: (indC k ++ z)) = skipWs z := by
  rw [skipWs_cons_ws _ (by decide)]
  exact skipWs_indC k z

/-! ## Digit-character lemmas -/

theorem digit_isDigit {c : Char} (h : isDigitCh c) : c.isDigit = true := by
  obtain ⟨k, hk, rfl⟩ := h
  interval_cases k <;> decide

theorem digit_toNat {c : Char} (h : isDigitCh c) :
    48 ≤ c.toNat ∧ c.toNat ≤ 57 := by
  obtain ⟨k, hk, rfl⟩ := h
  interval_cases k <;> exact ⟨by decide, by decide⟩

theorem digit_not_special {c : Char} (h : isDigitCh c) :
    isWsChar c = false ∧ c ≠ '"' ∧ c ≠ '\\' ∧ c ≠ obrace ∧ c ≠ '[' ∧
      c ≠ ']' ∧ c ≠ cbrace ∧ c ≠ 'n' ∧ c ≠ 't' ∧ c ≠ 'f' ∧ c ≠ '-' ∧
      c ≠ ',' ∧ c ≠ '\n' := by
  obtain ⟨k, hk, rfl⟩ := h
  interval_cases k <;> decide

theorem digit_char_toNat (k : Nat) (hk : k < 10) :
    (Char.ofNat (48 + k)).toNat = 48 + k := by
  interval_cases k <;> decide

theorem digit_char_ne_zero (k : Nat) (hk : k < 10) (h0 : k ≠ 0) :
    Char.ofNat (48 + k) ≠ '0' := by
  interval_cases k <;> first | (exact absurd rfl h0) | decide

theorem restOk_not_digit {rest : List Char} (h : restOk rest) :
    ∀ c z, rest = c :: z → c.isDigit = false ∧ c ≠ '.' ∧ c ≠ 'e' ∧
      c ≠ 'E' := by
  intro c z hz
  rw [hz] at h
  rcases h with rfl | rfl <;> exact ⟨by decide, by decide, by decide,
    by decide⟩

/-! ## Decimal-digit printing lemmas -/

theorem natDecAux_zero (fuel : Nat) (acc : List Char) :
    natDecAux fuel 0 acc = acc := by
  cases fuel <;> simp [natDecAux]

theorem natDecAux_spec (n : Nat) (hn : 0 < n) :
    ∀ (fuel : Nat) (acc : List Char), n ≤ fuel →
    ∃ ds, natDecAux fuel n acc = ds ++ acc ∧ ds ≠ [] ∧
      (∀ c ∈ ds, isDigitCh c) ∧
      (∀ hd, ds.head? = some hd → hd ≠ '0') ∧
      digitsVal ds = n := by
  induction n using Nat.strong_induction_on with
  | _ n ih =>
    intro fuel acc hfuel
    cases fuel with
    | zero => omega
    | succ f =>
      rw [show natDecAux (f + 1) n acc =
        natDecAux f (n / 10) (Char.ofNat (48 + n % 10) :: acc) from by
          simp [natDecAux, Nat.pos_iff_ne_zero.mp hn]]
      have hk : n % 10 < 10 := Nat.mod_lt n (by omega)
      by_cases h10 : n < 10
      · have hq : n / 10 = 0 := Nat.div_eq_of_lt h10
        rw [hq, natDecAux_zero]
        refine ⟨[Char.ofNat (48 + n % 10)], rfl, by simp, ?_, ?_, ?_⟩
        · intro c hc
          rw [List.mem_singleton] at hc
          exact hc ▸ ⟨n % 10, hk, rfl⟩
        · intro hd hhd
          simp only [List.head?_cons, Option.some.injEq] at hhd
          subst hhd
          have hmn : n % 10 = n := Nat.mod_eq_of_lt h10
          have hnz : n % 10 ≠ 0 := by omega
          exact digit_char_ne_zero (n % 10) hk hnz
        · simp [digitsVal, Nat.mod_eq_of_lt h10, digit_char_toNat n h10]
      · have hqpos : 0 < n / 10 := Nat.div_pos (by omega) (by omega)
        have hqlt : n / 10 < n := Nat.div_lt_self hn (by omega)
        obtain ⟨ds', heq, hne, hdig, hhd, hval⟩ :=
          ih (n / 10) hqlt hqpos f (Char.ofNat (48 + n % 10) :: acc)
            (by omega)
        refine ⟨ds' ++ [Char.ofNat (48 + n % 10)], ?_, by simp, ?_, ?_, ?_⟩
        · rw [heq, List.append_assoc, List.singleton_append]
        · intro c hc
          rcases List.mem_append.mp hc with hc | hc
          · exact hdig c hc
          · rw [List.mem_singleton] at hc
            exact hc ▸ ⟨n % 10, hk, rfl⟩
        · intro hd hhd'
          apply hhd
          rwa [List.head?_append_of_ne_nil _ hne] at hhd'
        · unfold digitsVal
          rw [List.foldl_append]
          simp only [List.foldl_cons, List.foldl_nil]
          unfold digitsVal at hval
          rw [hval, digit_char_toNat (n % 10) hk]
          omega

theorem natDec_spec (n : Nat) :
    ∃ ds, natDec n = ds ∧ ds ≠ [] ∧ (∀ c ∈ ds, isDigitCh c) ∧
      digitsVal ds = n ∧
      (n ≠ 0 → ∀ hd, ds.head? = some hd → hd ≠ '0') := by
  by_cases h0 : n = 0
  · subst h0
    exact ⟨['0'], rfl, by simp, by
      intro c hc
      rw [List.mem_singleton] at hc
      exact hc ▸ ⟨0, by omega, by decide⟩, by decide, by simp⟩
  · obtain ⟨ds, heq, hne, hdig, hhd, hval⟩ :=
      natDecAux_spec n (by omega) n [] (le_refl n)
    refine ⟨ds, ?_, hne, hdig, hval, fun _ => hhd⟩
    rw [natDec, if_neg h0, heq, List.append_nil]

/-! ## Number parsing inverts number printing -/

theorem takeWhile_digits (ds rest : List Char)
    (hds : ∀ c ∈ ds, isDigitCh c) (hrest : restOk rest) :
    (ds ++ rest).takeWhile (·.isDigit) = ds ∧
    (ds ++ rest).dropWhile (·.isDigit) = rest := by
  induction ds with
  | nil =>
    simp only [List.nil_append]
    cases rest with
    | nil => simp
    | cons c z =>
      obtain ⟨hnd, _, _, _⟩ := restOk_not_digit hrest c z rfl
      constructor
      · simp [List.takeWhile_cons, hnd]
      · simp [List.dropWhile_cons, hnd]
  | cons c ds ih =>
    have hc := digit_isDigit (hds c (List.mem_cons_self ..))
    have hih := ih fun x hx => hds x (List.mem_cons_of_mem _ hx)
    constructor
    · simp [List.takeWhile_cons, hc, hih.1]
    · simp [List.dropWhile_cons, hc, hih.2]

theorem numFinish_restOk (neg : Bool) (n : Nat) (rest : List Char)
    (hrest : restOk rest) :
    numFinish neg n rest =
      some (.int (if neg then -(n : Int) else (n : Int)), rest) := by
  cases rest with
  | nil => rfl
  | cons c z =>
    obtain ⟨_, h1, h2, h3⟩ := restOk_not_digit hrest c z rfl
    simp [numFinish, h1, h2, h3]

theorem parseNumber_natDec (neg : Bool) (m : Nat) (hm : m ≠ 0)
    (rest : List Char) (hrest : restOk rest) :
    (match natDec m ++ rest with
      | [] => none
      | c :: r =>
        if c = '0' then numFinish neg 0 r
        else if c.isDigit then
          numFinish neg (digitsVal (c :: r.takeWhile (·.isDigit)))
            (r.dropWhile (·.isDigit))
        else none) =
      some (.int (if neg then -(m : Int) else (m : Int)), rest) := by
  obtain ⟨ds, hds, hne, hdig, hval, hhd⟩ := natDec_spec m
  match ds, hne with
  | hd :: tl, _ =>
    have hmemhd : isDigitCh hd := hdig hd (List.mem_cons_self ..)
    have hd0 : hd ≠ '0' := hhd hm hd rfl
    have hdd := digit_isDigit hmemhd
    have htl : ∀ c ∈ tl, isDigitCh c :=
      fun c hc => hdig c (List.mem_cons_of_mem _ hc)
    obtain ⟨htake, hdrop⟩ := takeWhile_digits tl rest htl hrest
    rw [hds, List.cons_append]
    simp only [if_neg hd0, hdd, if_true, htake, hdrop]
    rw [numFinish_restOk neg _ rest hrest]
    rw [show digitsVal (hd :: tl) = m from hval]

theorem parseNumber_intDec (n : Int) (rest : List Char)
    (hrest : restOk rest) :
    parseNumber (intDec n ++ rest) = some (.int n, rest) := by
  cases n with
  | ofNat m =>
    by_cases h0 : m = 0
    · subst h0
      rw [show intDec (Int.ofNat 0) ++ rest = '0' :: rest from rfl]
      rw [show parseNumber ('0' :: rest) = numFinish false 0 rest from rfl]
      rw [numFinish_restOk false 0 rest hrest]
      simp
    · obtain ⟨ds, hds, hne, hdig, hval, hhd⟩ := natDec_spec m
      have hdash : ∀ c ∈ ds, c ≠ '-' := by
        intro c hc
        exact (digit_not_special (hdig c hc)).2.2.2.2.2.2.2.2.2.2.1
      rw [show intDec (Int.ofNat m) = natDec m from rfl]
      have hred : parseNumber (natDec m ++ rest) =
          (match natDec m ++ rest with
            | [] => none
            | c :: r =>
              if c = '0' then numFinish false 0 r
              else if c.isDigit then
                numFinish false (digitsVal (c :: r.takeWhile (·.isDigit)))
                  (r.dropWhile (·.isDigit))
              else none) := by
        match hds' : natDec m ++ rest, hne with
        | c :: r, _ =>
          have hcds : c ∈ ds := by
            have : natDec m = ds := hds
            rcases ds with _ | ⟨d₀, ds'⟩
            · exact absurd rfl hne
            · rw [this, List.cons_append] at hds'
              rw [List.cons.injEq] at hds'
              rw [hds'.1]
              exact List.mem_cons_self ..
          simp only [parseNumber, if_neg (hdash c hcds)]
        | [], hne' =>
          rcases ds with _ | _
          · exact absurd rfl hne
          · rw [hds] at hds'
            simp at hds'
      rw [hred]
      have := parseNumber_natDec false m h0 rest hrest
      rw [this]
      simp
  | negSucc m =>
    rw [show intDec (Int.negSucc m) ++ rest =
      '-' :: (natDec (m + 1) ++ rest) from by simp [intDec]]
    have hred : parseNumber ('-' :: (natDec (m + 1) ++ rest)) =
        (match natDec (m + 1) ++ rest with
          | [] => none
          | c :: r =>
            if c = '0' then numFinish true 0 r
            else if c.isDigit then
              numFinish true (digitsVal (c :: r.takeWhile (·.isDigit)))
                (r.dropWhile (·.isDigit))
            else none) := rfl
    rw [hred, parseNumber_natDec true (m + 1) (by omega) rest hrest]
    simp only [Option.some.injEq, Prod.mk.injEq, JVal.int.injEq, if_true,
      and_true]
    rw [Int.negSucc_eq]
    push_cast
    ring

/-! ## String parsing inverts string escaping -/

theorem escChar_ne_nil (c : Char) : escChar c ≠ [] := by
  unfold escChar
  repeat' split
  all_goals simp

theorem hexVal_hexDigit (x : Nat) (hx : x < 16) :
    hexVal (hexDigit x) = some x := by
  interval_cases x <;> decide

theorem parseStrBody_inv (cs : List Char) :
    ∀ (fuel : Nat) (acc rest : List Char),
      (escList cs).length < fuel →
      parseStrBody fuel (escList cs ++ ('"' :: rest)) acc =
        some (String.mk (acc.reverse ++ cs), rest) := by
  induction cs with
  | nil =>
    intro fuel acc rest hf
    cases fuel with
    | zero => omega
    | succ f => simp [escList, parseStrBody]
  | cons c cs ih =>
    intro fuel acc rest hf
    have hEsc : escList (c :: cs) = escChar c ++ escList cs := rfl
    cases fuel with
    | zero => omega
    | succ f =>
      have hposK : 0 < (escChar c).length :=
        List.length_pos.mpr (escChar_ne_nil c)
      have hflen : (escChar c).length + (escList cs).length < f + 1 := by
        rw [hEsc, List.length_append] at hf
        omega
      by_cases h1 : c = '"'
      · subst h1
        have hlt : (escList cs).length < f := by
          have : (escChar '"').length = 2 := rfl
          omega
        rw [show escList ('"' :: cs) ++ ('"' :: rest) =
          '\\' :: '"' :: (escList cs ++ ('"' :: rest)) from rfl]
        rw [show parseStrBody (f + 1)
            ('\\' :: '"' :: (escList cs ++ ('"' :: rest))) acc =
          parseStrBody f (escList cs ++ ('"' :: rest)) ('"' :: acc)
          from rfl]
        rw [ih f ('"' :: acc) rest hlt]
        simp
      · by_cases h2 : c = '\\'
        · subst h2
          have hlt : (escList cs).length < f := by
            have : (escChar '\\').length = 2 := rfl
            omega
          rw [show escList ('\\' :: cs) ++ ('"' :: rest) =
            '\\' :: '\\' :: (escList cs ++ ('"' :: rest)) from rfl]
          rw [show parseStrBody (f + 1)
              ('\\' :: '\\' :: (escList cs ++ ('"' :: rest))) acc =
            parseStrBody f (escList cs ++ ('"' :: rest)) ('\\' :: acc)
            from rfl]
          rw [ih f ('\\' :: acc) rest hlt]
          simp
        · by_cases h3 : c = '\n'
          · subst h3
            have hlt : (escList cs).length < f := by
              have : (escChar '\n').length = 2 := rfl
              omega
            rw [show escList ('\n' :: cs) ++ ('"' :: rest) =
              '\\' :: 'n' :: (escList cs ++ ('"' :: rest)) from rfl]
            rw [show parseStrBody (f + 1)
                ('\\' :: 'n' :: (escList cs ++ ('"' :: rest))) acc =
              parseStrBody f (escList cs ++ ('"' :: rest)) ('\n' :: acc)
              from rfl]
            rw [ih f ('\n' :: acc) rest hlt]
            simp
          · by_cases h4 : c = '\t'
            · subst h4
              have hlt : (escList cs).length < f := by
                have : (escChar '\t').length = 2 := rfl
                omega
              rw [show escList ('\t' :: cs) ++ ('"' :: rest) =
                '\\' :: 't' :: (escList cs ++ ('"' :: rest)) from rfl]
              rw [show parseStrBody (f + 1)
                  ('\\' :: 't' :: (escList cs ++ ('"' :: rest))) acc =
                parseStrBody f (escList cs ++ ('"' :: rest)) ('\t' :: acc)
                from rfl]
              rw [ih f ('\t' :: acc) rest hlt]
              simp
            · by_cases h5 : c = '\r'
              · subst h5
                have hlt : (escList cs).length < f := by
                  have : (escChar '\r').length = 2 := rfl
                  omega
                rw [show escList ('\r' :: cs) ++ ('"' :: rest) =
                  '\\' :: 'r' :: (escList cs ++ ('"' :: rest)) from rfl]
                rw [show parseStrBody (f + 1)
                    ('\\' :: 'r' :: (escList cs ++ ('"' :: rest))) acc =
                  parseStrBody f (escList cs ++ ('"' :: rest))
                    ('\r' :: acc) from rfl]
                rw [ih f ('\r' :: acc) rest hlt]
                simp
              · by_cases h6 : c = Char.ofNat 8
                · subst h6
                  have hlt : (escList cs).length < f := by
                    have : (escChar (Char.ofNat 8)).length = 2 := rfl
                    omega
                  rw [show escList (Char.ofNat 8 :: cs) ++ ('"' :: rest) =
                    '\\' :: 'b' :: (escList cs ++ ('"' :: rest)) from rfl]
                  rw [show parseStrBody (f + 1)
                      ('\\' :: 'b' :: (escList cs ++ ('"' :: rest))) acc =
                    parseStrBody f (escList cs ++ ('"' :: rest))
                      (Char.ofNat 8 :: acc) from rfl]
                  rw [ih f (Char.ofNat 8 :: acc) rest hlt]
                  simp
                · by_cases h7 : c = Char.ofNat 12
                  · subst h7
                    have hlt : (escList cs).length < f := by
                      have : (escChar (Char.ofNat 12)).length = 2 := rfl
                      omega
                    rw [show escList (Char.ofNat 12 :: cs) ++
                        ('"' :: rest) =
                      '\\' :: 'f' :: (escList cs ++ ('"' :: rest))
                      from rfl]
                    rw [show parseStrBody (f + 1)
                        ('\\' :: 'f' ::
                          (escList cs ++ ('"' :: rest))) acc =
                      parseStrBody f (escList cs ++ ('"' :: rest))
                        (Char.ofNat 12 :: acc) from rfl]
                    rw [ih f (Char.ofNat 12 :: acc) rest hlt]
                    simp
                  · by_cases h8 : c.toNat < 32
                    · have hEscC : escChar c = ['\\', 'u', '0', '0',
                          hexDigit (c.toNat / 16),
                          hexDigit (c.toNat % 16)] := by
                        unfold escChar
                        rw [if_neg h1, if_neg h2, if_neg h3, if_neg h4,
                          if_neg h5, if_neg h6, if_neg h7, if_pos h8]
                      have hlt : (escList cs).length < f := by
                        have : (escChar c).length = 6 := by
                          rw [hEscC]
                          rfl
                        omega
                      rw [hEsc, hEscC]
                      rw [show (['\\', 'u', '0', '0',
                          hexDigit (c.toNat / 16),
                          hexDigit (c.toNat % 16)] ++ escList cs) ++
                            ('"' :: rest) =
                        '\\' :: 'u' :: '0' :: '0' ::
                          hexDigit (c.toNat / 16) ::
                          hexDigit (c.toNat % 16) ::
                          (escList cs ++ ('"' :: rest)) from by simp]
                      rw [show parseStrBody (f + 1)
                          ('\\' :: 'u' :: '0' :: '0' ::
                            hexDigit (c.toNat / 16) ::
                            hexDigit (c.toNat % 16) ::
                            (escList cs ++ ('"' :: rest))) acc =
                        (match hexVal '0', hexVal '0',
                            hexVal (hexDigit (c.toNat / 16)),
                            hexVal (hexDigit (c.toNat % 16)) with
                          | some a, some b, some c1, some c0 =>
                              parseStrBody f (escList cs ++ ('"' :: rest))
                                (Char.ofNat
                                  (a * 4096 + b * 256 + c1 * 16 + c0)
                                  :: acc)
                          | _, _, _, _ => none) from rfl]
                      rw [hexVal_hexDigit (c.toNat / 16) (by omega),
                        hexVal_hexDigit (c.toNat % 16) (by omega)]
                      have hcode : (0 : Nat) * 4096 + 0 * 256 +
                          c.toNat / 16 * 16 + c.toNat % 16 = c.toNat := by
                        omega
                      rw [show hexVal '0' = some 0 from rfl]
                      simp only [hcode, Char.ofNat_toNat]
                      rw [ih f (c :: acc) rest hlt]
                      simp
                    · have hEscC : escChar c = [c] := by
                        unfold escChar
                        rw [if_neg h1, if_neg h2, if_neg h3, if_neg h4,
                          if_neg h5, if_neg h6, if_neg h7, if_neg h8]
                      have hlt : (escList cs).length < f := by
                        have : (escChar c).length = 1 := by
                          rw [hEscC]
                          rfl
                        omega
                      rw [hEsc, hEscC]
                      rw [show ([c] ++ escList cs) ++ ('"' :: rest) =
                        c :: (escList cs ++ ('"' :: rest)) from by simp]
                      rw [show parseStrBody (f + 1)
                          (c :: (escList cs ++ ('"' :: rest))) acc =
                        if c = '"' then
                          some (String.mk acc.reverse,
                            escList cs ++ ('"' :: rest))
                        else if c = '\\' then
                          (match escList cs ++ ('"' :: rest) with
                            | [] => none
                            | e :: cs' =>
                              if e = '"' then
                                parseStrBody f cs' ('"' :: acc)
                              else if e = '\\' then
                                parseStrBody f cs' ('\\' :: acc)
                              else if e = '/' then
                                parseStrBody f cs' ('/' :: acc)
                              else if e = 'b' then
                                parseStrBody f cs' (Char.ofNat 8 :: acc)
                              else if e = 'f' then
                                parseStrBody f cs' (Char.ofNat 12 :: acc)
                              else if e = 'n' then
                                parseStrBody f cs' ('\n' :: acc)
                              else if e = 'r' then
                                parseStrBody f cs' ('\r' :: acc)
                              else if e = 't' then
                                parseStrBody f cs' ('\t' :: acc)
                              else if e = 'u' then
                                (match cs' with
                                  | h1 :: h2 :: h3 :: h4 :: rest' =>
                                    (match hexVal h1, hexVal h2,
                                        hexVal h3, hexVal h4 with
                                      | some a, some b, some c1, some c0 =>
                                          parseStrBody f rest'
                                            (Char.ofNat (a * 4096 +
                                              b * 256 + c1 * 16 + c0)
                                              :: acc)
                                      | _, _, _, _ => none)
                                  | _ => none)
                              else none)
                        else if c.toNat < 32 then none
                        else parseStrBody f
                          (escList cs ++ ('"' :: rest)) (c :: acc)
                        from rfl]
                      rw [if_neg h1, if_neg h2, if_neg h8]
                      rw [ih f (c :: acc) rest hlt]
                      simp

/-! ## Heads of serialized output -/

theorem valueStart_facts {c : Char} (h : valueStart c) :
    isWsChar c = false ∧ c ≠ ']' ∧ c ≠ cbrace := by
  rcases h with rfl | rfl | rfl | rfl | rfl | rfl | rfl | hd
  · exact ⟨by decide, by decide, by decide⟩
  · exact ⟨by decide, by decide, by decide⟩
  · exact ⟨by decide, by decide, by decide⟩
  · exact ⟨by decide, by decide, by decide⟩
  · exact ⟨by decide, by decide, by decide⟩
  · exact ⟨by decide, by decide, by decide⟩
  · exact ⟨by decide, by decide, by decide⟩
  · obtain ⟨hw, _, _, _, _, hrb, hcb, _⟩ := digit_not_special hd
    exact ⟨hw, hrb, hcb⟩

theorem encStr_cons (s : String) :
    encStr s = '"' :: (escList s.toList ++ ['"']) := rfl

theorem intDec_head (n : Int) :
    ∃ c z, intDec n = c :: z ∧ (c = '-' ∨ isDigitCh c) := by
  cases n with
  | ofNat m =>
    obtain ⟨ds, hds, hne, hdig, _, _⟩ := natDec_spec m
    match ds, hne with
    | c0 :: tl, _ =>
      exact ⟨c0, tl, hds, Or.inr (hdig c0 (List.mem_cons_self ..))⟩
  | negSucc m =>
    exact ⟨'-', natDec (m + 1), rfl, Or.inl rfl⟩

theorem dumpAt_head (d : Nat) (v : JVal) :
    ∃ c z, dumpAt d v = c :: z ∧ valueStart c := by
  cases v with
  | null => exact ⟨'n', _, rfl, by simp [valueStart]⟩
  | bool b =>
    cases b
    · exact ⟨'f', _, rfl, by simp [valueStart]⟩
    · exact ⟨'t', _, rfl, by simp [valueStart]⟩
  | int n =>
    obtain ⟨c, z, hcz, hv⟩ := intDec_head n
    refine ⟨c, z, hcz, ?_⟩
    rcases hv with rfl | hd
    · simp [valueStart]
    · exact Or.inr (Or.inr (Or.inr (Or.inr (Or.inr (Or.inr
        (Or.inr hd))))))
  | str s =>
    exact ⟨'"', _, encStr_cons s, Or.inl rfl⟩
  | arr xs =>
    cases xs
    · exact ⟨'[', _, rfl, by simp [valueStart]⟩
    · exact ⟨'[', _, rfl, by simp [valueStart]⟩
  | obj fs =>
    cases fs
    · exact ⟨obrace, _, rfl, by simp [valueStart]⟩
    · exact ⟨obrace, _, rfl, by simp [valueStart]⟩

theorem dumpItems_head (d : Nat) (x : JVal) (xs : List JVal) :
    ∃ c z, dumpItems d (x :: xs) = c :: z ∧ valueStart c := by
  obtain ⟨c, z, hh, hv⟩ := dumpAt_head d x
  cases xs with
  | nil => exact ⟨c, z, hh, hv⟩
  | cons y ys =>
    refine ⟨c, z ++ ',' :: '\n' :: (indC d ++ dumpItems d (y :: ys)),
      ?_, hv⟩
    rw [show dumpItems d (x :: y :: ys) =
      dumpAt d x ++ ',' :: '\n' :: (indC d ++ dumpItems d (y :: ys))
      from rfl, hh]
    simp

theorem dumpFields_head (d : Nat) (p : String × JVal)
    (fs : List (String × JVal)) :
    ∃ z, dumpFields d (p :: fs) = '"' :: z := by
  obtain ⟨k, v⟩ := p
  cases fs with
  | nil =>
    refine ⟨(escList k.toList ++ ['"']) ++ ':' :: ' ' :: dumpAt d v, ?_⟩
    rw [show dumpFields d [(k, v)] =
      encStr k ++ ':' :: ' ' :: dumpAt d v from rfl, encStr_cons]
    simp
  | cons q fs =>
    refine ⟨(escList k.toList ++ ['"']) ++ (':' :: ' ' :: dumpAt d v ++
      ',' :: '\n' :: (indC d ++ dumpFields d (q :: fs))), ?_⟩
    rw [show dumpFields d ((k, v) :: q :: fs) =
      encStr k ++ ':' :: ' ' :: dumpAt d v ++
        ',' :: '\n' :: (indC d ++ dumpFields d (q :: fs)) from rfl,
      encStr_cons]
    simp

/-! ## The serialized form is at least as long as `fsize` -/

theorem intDec_length_pos (n : Int) : 0 < (intDec n).length := by
  obtain ⟨c, z, hcz, _⟩ := intDec_head n
  rw [hcz]
  simp

mutual
theorem dumpAt_len (d : Nat) (v : JVal) : fsize v ≤ (dumpAt d v).length :=
  match v with
  | .null => by simp [dumpAt, fsize]
  | .bool b => by cases b <;> simp [dumpAt, fsize]
  | .int n => by
    have := intDec_length_pos n
    simp only [dumpAt, fsize]
    omega
  | .str s => by
    rw [show dumpAt d (.str s) = encStr s from rfl, encStr_cons]
    simp [fsize]
  | .arr [] => by simp [dumpAt, fsize, fsizeItems]
  | .arr (x :: xs) => by
    have hIH := dumpItems_len (d + 1) (x :: xs)
    simp only [dumpAt, fsize]
    simp only [List.length_cons, List.length_append, indC,
      List.length_replicate]
    omega
  | .obj [] => by simp [dumpAt, fsize, fsizeFields]
  | .obj (p :: fs) => by
    have hIH := dumpFields_len (d + 1) (p :: fs)
    simp only [dumpAt, fsize]
    simp only [List.length_cons, List.length_append, indC,
      List.length_replicate]
    omega

theorem dumpItems_len (d : Nat) (xs : List JVal) :
    fsizeItems xs ≤ (dumpItems d xs).length + 1 :=
  match xs with
  | [] => by simp [dumpItems, fsizeItems]
  | [x] => by
    have hIH := dumpAt_len d x
    simp only [dumpItems, fsizeItems]
    omega
  | x :: y :: xs => by
    have hIH1 := dumpAt_len d x
    have hIH2 := dumpItems_len d (y :: xs)
    simp only [dumpItems, fsizeItems]
    simp only [List.length_append, List.length_cons, indC,
      List.length_replicate]
    simp only [fsizeItems] at hIH2
    omega

theorem dumpFields_len (d : Nat) (fs : List (String × JVal)) :
    fsizeFields fs ≤ (dumpFields d fs).length + 1 :=
  match fs with
  | [] => by simp [dumpFields, fsizeFields]
  | [(k, v)] => by
    have hIH := dumpAt_len d v
    rw [show dumpFields d [(k, v)] =
      encStr k ++ ':' :: ' ' :: dumpAt d v from rfl, encStr_cons]
    simp only [fsizeFields, List.length_cons, List.length_append]
    omega
  | (k, v) :: q :: fs => by
    have hIH1 := dumpAt_len d v
    have hIH2 := dumpFields_len d (q :: fs)
    rw [show dumpFields d ((k, v) :: q :: fs) =
      encStr k ++ ':' :: ' ' :: dumpAt d v ++
        ',' :: '\n' :: (indC d ++ dumpFields d (q :: fs)) from rfl,
      encStr_cons]
    simp only [fsizeFields, List.length_cons, List.length_append, indC,
      List.length_replicate]
    simp only [fsizeFields] at hIH2
    omega
end

/-! ## Fresh-key insertion -/

theorem setKey_fresh (acc : List (String × JVal)) (k : String) (v : JVal)
    (h : ∀ r ∈ acc, r.1 ≠ k) : setKey acc k v = acc ++ [(k, v)] := by
  induction acc with
  | nil => rfl
  | cons r rest ih =>
    obtain ⟨k', v'⟩ := r
    have hk : k' ≠ k := h (k', v') (List.mem_cons_self ..)
    simp only [setKey, if_neg hk, List.cons_append]
    rw [ih fun r hr => h r (List.mem_cons_of_mem _ hr)]

theorem keysNodupB_cons {k : String} {v : JVal}
    {fs : List (String × JVal)} (h : keysNodupB ((k, v) :: fs) = true) :
    (∀ r ∈ fs, r.1 ≠ k) ∧ keysNodupB fs = true := by
  simp only [keysNodupB, Bool.and_eq_true, List.all_eq_true,
    decide_eq_true_eq] at h
  exact ⟨h.1, h.2⟩

/-! ## The parser inverts the serializer -/

theorem parse_dump_roundtrip (fuel : Nat) :
    (∀ (v : JVal) (d : Nat) (rest : List Char),
      wfKeys v = true → fsize v ≤ fuel → restOk rest →
      parseVal fuel (dumpAt d v ++ rest) = some (v, rest)) ∧
    (∀ (x : JVal) (xs acc : List JVal) (di dc : Nat) (rest : List Char),
      wfItems (x :: xs) = true → fsizeItems (x :: xs) ≤ fuel →
      restOk rest →
      parseArrItems fuel
        (dumpItems di (x :: xs) ++ '\n' :: (indC dc ++ (']' :: rest))) acc
        = some (.arr (acc ++ x :: xs), rest)) ∧
    (∀ (k : String) (v : JVal) (fs acc : List (String × JVal))
        (di dc : Nat) (rest : List Char),
      keysNodupB ((k, v) :: fs) = true → wfFields ((k, v) :: fs) = true →
      (∀ q ∈ (k, v) :: fs, ∀ r ∈ acc, r.1 ≠ q.1) →
      fsizeFields ((k, v) :: fs) ≤ fuel → restOk rest →
      parseObjItems fuel
        (dumpFields di ((k, v) :: fs) ++
          '\n' :: (indC dc ++ (cbrace :: rest))) acc
        = some (.obj (acc ++ (k, v) :: fs), rest)) := by
  induction fuel with
  | zero =>
    refine ⟨?_, ?_, ?_⟩
    · intro v d rest _ hf _
      exact absurd hf (by cases v <;> simp [fsize])
    · intro x xs acc di dc rest _ hf _
      exact absurd hf (by simp only [fsizeItems]; omega)
    · intro k v fs acc di dc rest _ _ _ hf _
      exact absurd hf (by simp only [fsizeFields]; omega)
  | succ f ih =>
    obtain ⟨ihV, ihA, ihO⟩ := ih
    refine ⟨?_, ?_, ?_⟩
    · -- values
      intro v d rest hw hf hr
      cases v with
      | null => rfl
      | bool b => cases b <;> rfl
      | int n =>
        obtain ⟨c, z, hcz, hv⟩ := intDec_head n
        have hfacts : c ≠ '"' ∧ c ≠ obrace ∧ c ≠ '[' ∧ c ≠ 'n' ∧
            c ≠ 't' ∧ c ≠ 'f' ∧ (c = '-' ∨ c.isDigit = true) := by
          rcases hv with rfl | hd
          · exact ⟨by decide, by decide, by decide, by decide, by decide,
              by decide, Or.inl rfl⟩
          · obtain ⟨_, h1, _, h2, h3, _, _, h4, h5, h6, _, _, _⟩ :=
              digit_not_special hd
            exact ⟨h1, h2, h3, h4, h5, h6, Or.inr (digit_isDigit hd)⟩
        obtain ⟨hq, hob, hlb, hn, ht, hf6, hdash⟩ := hfacts
        rw [show dumpAt d (.int n) = intDec n from rfl, hcz,
          List.cons_append]
        simp only [parseVal]
        rw [if_neg hq, if_neg hob, if_neg hlb, if_neg hn, if_neg ht,
          if_neg hf6]
        rw [if_pos (show (c = '-' || c.isDigit) = true from by
          rcases hdash with rfl | hd
          · simp
          · simp [hd])]
        rw [show c :: (z ++ rest) = intDec n ++ rest from by
          rw [hcz]
          simp]
        exact parseNumber_intDec n rest hr
      | str s =>
        rw [show dumpAt d (.str s) = encStr s from rfl, encStr_cons,
          List.cons_append]
        simp only [parseVal, if_true]
        have hra : (escList s.toList ++ ['"']) ++ rest =
            escList s.toList ++ ('"' :: rest) := by simp
        rw [hra]
        rw [parseStrBody_inv s.toList _ [] rest (by simp)]
        simp
      | arr xs =>
        cases xs with
        | nil => rfl
        | cons x xs =>
          obtain ⟨cI, zI, hI, hvI⟩ := dumpItems_head (d + 1) x xs
          obtain ⟨hIw, hIrb, hIcb⟩ := valueStart_facts hvI
          rw [show dumpAt d (.arr (x :: xs)) = '[' :: '\n' ::
            (indC (d + 1) ++ dumpItems (d + 1) (x :: xs) ++
              '\n' :: (indC d ++ [']'])) from rfl]
          rw [show ('[' :: '\n' :: (indC (d + 1) ++
              dumpItems (d + 1) (x :: xs) ++
              '\n' :: (indC d ++ [']']))) ++ rest
            = '[' :: '\n' :: (indC (d + 1) ++
              (dumpItems (d + 1) (x :: xs) ++
              '\n' :: (indC d ++ (']' :: rest)))) from by simp]
          simp only [parseVal, if_true]
          rw [if_neg (show ¬('[' : Char) = '"' by decide),
            if_neg (show ¬('[' : Char) = obrace by decide)]
          rw [skipWs_nl_indC]
          rw [show skipWs (dumpItems (d + 1) (x :: xs) ++ '\n' ::
              (indC d ++ (']' :: rest))) =
            dumpItems (d + 1) (x :: xs) ++ '\n' :: (indC d ++ (']' :: rest))
            from by
              rw [hI, List.cons_append]
              exact skipWs_cons_not _ hIw]
          rw [hI, List.cons_append]
          rw [show (match cI :: (zI ++ '\n' :: (indC d ++ (']' :: rest)))
                with
              | [] => none
              | c' :: r => if c' = ']' then some (JVal.arr [], r)
                           else parseArrItems f (c' :: r) []) =
            (if cI = ']' then
              some (JVal.arr [], zI ++ '\n' :: (indC d ++ (']' :: rest)))
            else parseArrItems f
              (cI :: (zI ++ '\n' :: (indC d ++ (']' :: rest)))) [])
            from rfl]
          rw [if_neg hIrb]
          rw [← List.cons_append, ← hI]
          rw [ihA x xs [] (d + 1) d rest
            (by simpa [wfKeys] using hw)
            (by simp only [fsize] at hf; omega) hr]
          simp
      | obj fs =>
        cases fs with
        | nil => rfl
        | cons p fs =>
          obtain ⟨zF, hF⟩ := dumpFields_head (d + 1) p fs
          obtain ⟨k, v⟩ := p
          rw [show dumpAt d (.obj ((k, v) :: fs)) = obrace :: '\n' ::
            (indC (d + 1) ++ dumpFields (d + 1) ((k, v) :: fs) ++
              '\n' :: (indC d ++ [cbrace])) from rfl]
          rw [show (obrace :: '\n' :: (indC (d + 1) ++
              dumpFields (d + 1) ((k, v) :: fs) ++
              '\n' :: (indC d ++ [cbrace]))) ++ rest
            = obrace :: '\n' :: (indC (d + 1) ++
              (dumpFields (d + 1) ((k, v) :: fs) ++
              '\n' :: (indC d ++ (cbrace :: rest)))) from by simp]
          simp only [parseVal]
          rw [if_neg (show ¬obrace = '"' by decide)]
          simp only [if_true]
          rw [skipWs_nl_indC]
          rw [show skipWs (dumpFields (d + 1) ((k, v) :: fs) ++ '\n' ::
              (indC d ++ (cbrace :: rest))) =
            dumpFields (d + 1) ((k, v) :: fs) ++
              '\n' :: (indC d ++ (cbrace :: rest))
            from by
              rw [hF, List.cons_append]
              exact skipWs_cons_not _ (by decide)]
          rw [hF, List.cons_append]
          rw [show (match '"' :: (zF ++ '\n' :: (indC d ++
                (cbrace :: rest))) with
              | [] => none
              | c' :: r => if c' = cbrace then some (JVal.obj [], r)
                           else parseObjItems f (c' :: r) []) =
            (if ('"' : Char) = cbrace then
              some (JVal.obj [], zF ++ '\n' :: (indC d ++ (cbrace :: rest)))
            else parseObjItems f
              ('"' :: (zF ++ '\n' :: (indC d ++ (cbrace :: rest)))) [])
            from rfl]
          rw [if_neg (show ¬('"' : Char) = cbrace by decide)]
          rw [← List.cons_append, ← hF]
          have hw' : keysNodupB ((k, v) :: fs) = true ∧
              wfFields ((k, v) :: fs) = true := by
            simpa [wfKeys, Bool.and_eq_true] using hw
          rw [ihO k v fs [] (d + 1) d rest hw'.1 hw'.2
            (fun q _ r hr' => absurd hr' (List.not_mem_nil r))
            (by simp only [fsize] at hf; omega) hr]
          simp
    · -- array items
      intro x xs acc di dc rest hwI hfI hr
      cases xs with
      | nil =>
        rw [show dumpItems di [x] = dumpAt di x from rfl]
        simp only [parseArrItems]
        rw [ihV x di ('\n' :: (indC dc ++ (']' :: rest)))
          (by simpa [wfItems] using hwI)
          (by simp only [fsizeItems] at hfI; omega)
          (Or.inr rfl)]
        simp only [skipWs_nl_indC,
          skipWs_cons_not _ (show isWsChar ']' = false by decide)]
        simp
      | cons y ys =>
        rw [show dumpItems di (x :: y :: ys) = dumpAt di x ++ ',' :: '\n' ::
          (indC di ++ dumpItems di (y :: ys)) from rfl]
        rw [show (dumpAt di x ++ ',' :: '\n' :: (indC di ++
            dumpItems di (y :: ys))) ++ '\n' :: (indC dc ++ (']' :: rest)) =
          dumpAt di x ++ ',' :: '\n' :: (indC di ++
            (dumpItems di (y :: ys) ++
            '\n' :: (indC dc ++ (']' :: rest)))) from by simp]
        simp only [parseArrItems]
        rw [ihV x di (',' :: '\n' :: (indC di ++ (dumpItems di (y :: ys) ++
            '\n' :: (indC dc ++ (']' :: rest)))))
          (by simp only [wfItems, Bool.and_eq_true] at hwI; exact hwI.1)
          (by simp only [fsizeItems] at hfI; omega)
          (Or.inl rfl)]
        simp only [skipWs_cons_not _ (show isWsChar ',' = false by decide)]
        simp only [if_true]
        rw [skipWs_nl_indC]
        obtain ⟨cI, zI, hI, hvI⟩ := dumpItems_head di y ys
        obtain ⟨hIw, _, _⟩ := valueStart_facts hvI
        rw [show skipWs (dumpItems di (y :: ys) ++ '\n' ::
            (indC dc ++ (']' :: rest))) =
          dumpItems di (y :: ys) ++ '\n' :: (indC dc ++ (']' :: rest))
          from by
            rw [hI, List.cons_append]
            exact skipWs_cons_not _ hIw]
        rw [ihA y ys (acc ++ [x]) di dc rest
          (by simp only [wfItems, Bool.and_eq_true] at hwI ⊢; exact hwI.2)
          (by simp only [fsizeItems] at hfI ⊢; omega) hr]
        simp
    · -- object entries
      intro k v fs acc di dc rest hnd hwF hfresh hfF hr
      cases fs with
      | nil =>
        rw [show dumpFields di [(k, v)] =
          encStr k ++ ':' :: ' ' :: dumpAt di v from rfl, encStr_cons]
        rw [show ('"' :: (escList k.toList ++ ['"']) ++
            ':' :: ' ' :: dumpAt di v) ++
              '\n' :: (indC dc ++ (cbrace :: rest)) =
          '"' :: (escList k.toList ++ ('"' :: (':' :: ' ' ::
            (dumpAt di v ++ '\n' :: (indC dc ++ (cbrace :: rest))))))
          from by simp]
        simp only [parseObjItems]
        rw [parseStrBody_inv k.toList _ [] _ (by simp)]
        simp only [skipWs_cons_not _ (show isWsChar ':' = false by decide)]
        rw [show skipWs (' ' :: (dumpAt di v ++ '\n' ::
            (indC dc ++ (cbrace :: rest)))) =
          skipWs (dumpAt di v ++ '\n' :: (indC dc ++ (cbrace :: rest)))
          from skipWs_cons_ws _ (by decide)]
        obtain ⟨cV, zV, hV, hvV⟩ := dumpAt_head di v
        obtain ⟨hVw, _, _⟩ := valueStart_facts hvV
        rw [show skipWs (dumpAt di v ++ '\n' ::
            (indC dc ++ (cbrace :: rest))) =
          dumpAt di v ++ '\n' :: (indC dc ++ (cbrace :: rest)) from by
            rw [hV, List.cons_append]
            exact skipWs_cons_not _ hVw]
        rw [ihV v di ('\n' :: (indC dc ++ (cbrace :: rest)))
          (by simp only [wfFields, Bool.and_eq_true] at hwF; exact hwF.1)
          (by simp only [fsizeFields] at hfF; omega)
          (Or.inr rfl)]
        simp only [skipWs_nl_indC,
          skipWs_cons_not _ (show isWsChar cbrace = false by decide)]
        rw [if_neg (show ¬cbrace = ',' by decide)]
        simp only [if_true]
        rw [show String.mk ([].reverse ++ k.toList) = k from rfl]
        rw [setKey_fresh acc k v
          (fun r hrr => hfresh (k, v) (List.mem_singleton.mpr rfl) r hrr)]
      | cons q fs =>
        rw [show dumpFields di ((k, v) :: q :: fs) =
          encStr k ++ ':' :: ' ' :: dumpAt di v ++ ',' :: '\n' ::
            (indC di ++ dumpFields di (q :: fs)) from rfl, encStr_cons]
        rw [show ('"' :: (escList k.toList ++ ['"']) ++
            ':' :: ' ' :: dumpAt di v ++ ',' :: '\n' ::
              (indC di ++ dumpFields di (q :: fs))) ++
            '\n' :: (indC dc ++ (cbrace :: rest)) =
          '"' :: (escList k.toList ++ ('"' :: (':' :: ' ' ::
            (dumpAt di v ++ ',' :: '\n' :: (indC di ++
              (dumpFields di (q :: fs) ++
                '\n' :: (indC dc ++ (cbrace :: rest))))))))
          from by simp]
        simp only [parseObjItems]
        rw [parseStrBody_inv k.toList _ [] _ (by simp)]
        simp only [skipWs_cons_not _ (show isWsChar ':' = false by decide)]
        rw [show skipWs (' ' :: (dumpAt di v ++ ',' :: '\n' ::
            (indC di ++ (dumpFields di (q :: fs) ++
              '\n' :: (indC dc ++ (cbrace :: rest)))))) =
          skipWs (dumpAt di v ++ ',' :: '\n' :: (indC di ++
            (dumpFields di (q :: fs) ++
              '\n' :: (indC dc ++ (cbrace :: rest)))))
          from skipWs_cons_ws _ (by decide)]
        obtain ⟨cV, zV, hV, hvV⟩ := dumpAt_head di v
        obtain ⟨hVw, _, _⟩ := valueStart_facts hvV
        rw [show skipWs (dumpAt di v ++ ',' :: '\n' :: (indC di ++
            (dumpFields di (q :: fs) ++
              '\n' :: (indC dc ++ (cbrace :: rest))))) =
          dumpAt di v ++ ',' :: '\n' :: (indC di ++
            (dumpFields di (q :: fs) ++
              '\n' :: (indC dc ++ (cbrace :: rest)))) from by
            rw [hV, List.cons_append]
            exact skipWs_cons_not _ hVw]
        rw [ihV v di (',' :: '\n' :: (indC di ++
            (dumpFields di (q :: fs) ++
              '\n' :: (indC dc ++ (cbrace :: rest)))))
          (by simp only [wfFields, Bool.and_eq_true] at hwF; exact hwF.1)
          (by simp only [fsizeFields] at hfF; omega)
          (Or.inl rfl)]
        simp only [skipWs_cons_not _ (show isWsChar ',' = false by decide)]
        simp only [if_true]
        rw [skipWs_nl_indC]
        obtain ⟨zF, hF⟩ := dumpFields_head di q fs
        rw [show skipWs (dumpFields di (q :: fs) ++
            '\n' :: (indC dc ++ (cbrace :: rest))) =
          dumpFields di (q :: fs) ++ '\n' :: (indC dc ++ (cbrace :: rest))
          from by
            rw [hF, List.cons_append]
            exact skipWs_cons_not _ (by decide)]
        rw [show String.mk ([].reverse ++ k.toList) = k from rfl]
        obtain ⟨hk, hnd'⟩ := keysNodupB_cons hnd
        obtain ⟨qk, qv⟩ := q
        rw [setKey_fresh acc k v (fun r hrr =>
          hfresh (k, v) (List.mem_cons_self ..) r hrr)]
        rw [ihO qk qv fs (acc ++ [(k, v)]) di dc rest hnd'
          (by simp only [wfFields, Bool.and_eq_true] at hwF ⊢; exact hwF.2)
          ?_ (by simp only [fsizeFields] at hfF ⊢; omega) hr]
        · simp
        · intro q' hq' r hrr
          rcases List.mem_append.mp hrr with hrr | hrr
          · exact hfresh q' (List.mem_cons_of_mem _ hq') r hrr
          · rw [List.mem_singleton] at hrr
            subst hrr
            exact fun hcontra => (hk q' hq') (hcontra ▸ rfl)

/-- `json.loads` inverts `json.dump(indent=2, ensure_ascii=False)` on every
value whose objects have distinct keys — i.e. on the serialization of any
actual Python value. -/
theorem jsonLoads_jsonDumps (v : JVal) (hw : wfKeys v = true) :
    jsonLoads (jsonDumps v) = some v := by
  obtain ⟨c, z, hcz, hv⟩ := dumpAt_head 0 v
  have hnw := (valueStart_facts hv).1
  unfold jsonLoads jsonDumps
  rw [show (String.mk (dumpAt 0 v)).toList = dumpAt 0 v from rfl]
  rw [show skipWs (dumpAt 0 v) = dumpAt 0 v from by
    rw [hcz]
    exact skipWs_cons_not _ hnw]
  have hlen : fsize v ≤ (dumpAt 0 v).length + 1 :=
    le_trans (dumpAt_len 0 v) (by omega)
  have hmain := (parse_dump_roundtrip ((dumpAt 0 v).length + 1)).1 v 0 []
    hw hlen trivial
  rw [List.append_nil] at hmain
  show (match parseVal ((dumpAt 0 v).length + 1) (dumpAt 0 v) with
    | some (v, r) => if skipWs r = [] then some v else none
    | none => none) = some v
  rw [hmain]
  rfl

/-! ## Well-formedness of built Documents -/

theorem wfFields_find {fs : List (String × JVal)} {k : String} {v : JVal}
    (hw : wfFields fs = true) (hf : keyFind fs k = some v) :
    wfKeys v = true := by
  induction fs with
  | nil => cases hf
  | cons p rest ih =>
    obtain ⟨k', v'⟩ := p
    simp only [wfFields, Bool.and_eq_true] at hw
    simp only [keyFind] at hf
    split at hf
    · cases hf
      exact hw.1
    · exact ih hw.2 hf

theorem mem_setKey {fs : List (String × JVal)} {k : String} {v : JVal}
    {r : String × JVal} (h : r ∈ setKey fs k v) : r.1 = k ∨ r ∈ fs := by
  induction fs with
  | nil =>
    simp only [setKey, List.mem_singleton] at h
    subst h
    exact Or.inl rfl
  | cons p rest ih =>
    obtain ⟨k', v'⟩ := p
    simp only [setKey] at h
    split at h
    · rcases List.mem_cons.mp h with rfl | h
      · next heq => exact Or.inl heq
      · exact Or.inr (List.mem_cons_of_mem _ h)
    · rcases List.mem_cons.mp h with rfl | h
      · exact Or.inr (List.mem_cons_self ..)
      · rcases ih h with h | h
        · exact Or.inl h
        · exact Or.inr (List.mem_cons_of_mem _ h)

theorem keysNodupB_setKey {fs : List (String × JVal)} (k : String)
    (v : JVal) (hw : keysNodupB fs = true) :
    keysNodupB (setKey fs k v) = true := by
  induction fs with
  | nil => simp [setKey, keysNodupB]
  | cons p rest ih =>
    obtain ⟨k', v'⟩ := p
    obtain ⟨hk, hrest⟩ := keysNodupB_cons hw
    simp only [setKey]
    split
    · next heq =>
      simp only [keysNodupB, Bool.and_eq_true, List.all_eq_true,
        decide_eq_true_eq]
      exact ⟨hk, hrest⟩
    · next hne =>
      simp only [keysNodupB, Bool.and_eq_true, List.all_eq_true,
        decide_eq_true_eq]
      refine ⟨?_, ih hrest⟩
      intro r hr
      rcases mem_setKey hr with h | h
      · rw [h]
        exact fun hc => hne hc.symm
      · exact hk r h

theorem wfFields_setKey {fs : List (String × JVal)} {k : String}
    {v : JVal} (hw : wfFields fs = true) (hv : wfKeys v = true) :
    wfFields (setKey fs k v) = true := by
  induction fs with
  | nil => simp [setKey, wfFields, hv]
  | cons p rest ih =>
    obtain ⟨k', v'⟩ := p
    simp only [wfFields, Bool.and_eq_true] at hw
    simp only [setKey]
    split
    · simp only [wfFields, Bool.and_eq_true]
      exact ⟨hv, hw.2⟩
    · simp only [wfFields, Bool.and_eq_true]
      exact ⟨hw.1, ih hw.2⟩

theorem wfItems_append {xs ys : List JVal} (hx : wfItems xs = true)
    (hy : wfItems ys = true) : wfItems (xs ++ ys) = true := by
  induction xs with
  | nil => simpa using hy
  | cons x xs ih =>
    simp only [List.cons_append, wfItems, Bool.and_eq_true] at hx ⊢
    exact ⟨hx.1, ih hx.2⟩

theorem wfItems_of_forall {xs : List JVal}
    (h : ∀ c ∈ xs, wfKeys c = true) : wfItems xs = true := by
  induction xs with
  | nil => rfl
  | cons x xs ih =>
    simp only [wfItems, Bool.and_eq_true]
    exact ⟨h x (List.mem_cons_self ..),
      ih fun c hc => h c (List.mem_cons_of_mem _ hc)⟩

theorem createNew_inv (h : PBIRHandler) (name desc : String) :
    docInv (h.createNew name desc) := by
  refine ⟨rfl, [("version", .str "1.0"), ("name", .str name),
    ("description", .str desc),
    ("datamodel", .obj [("tables", .arr []), ("relationships", .arr [])]),
    ("reports", .arr []),
    ("settings", .obj [("culture", .str "en-US")])],
    [("tables", .arr []), ("relationships", .arr [])], [], rfl, rfl, rfl⟩

theorem addTable_inv (h : PBIRHandler) (tn : String)
    (cols : Option (List JVal)) (hinv : docInv h)
    (hcols : ∀ c ∈ cols.getD [], wfKeys c = true) :
    ∃ h', h.addTable tn cols = some h' ∧ docInv h' ∧ h'.path = h.path := by
  obtain ⟨hwf, m, dm, ts, hm, hdm, hts⟩ := hinv
  rw [hm] at hwf
  simp only [wfKeys, Bool.and_eq_true] at hwf
  have hdmwf : wfKeys (.obj dm) = true := wfFields_find hwf.2 hdm
  simp only [wfKeys, Bool.and_eq_true] at hdmwf
  have htswf : wfKeys (.arr ts) = true := wfFields_find hdmwf.2 hts
  simp only [wfKeys] at htswf
  have htbl : wfKeys (.obj [("name", .str tn),
      ("columns", .arr (cols.getD []))]) = true := by
    simp only [wfKeys, Bool.and_eq_true]
    refine ⟨rfl, ?_⟩
    simp [wfFields, wfKeys]
    exact wfItems_of_forall hcols
  refine ⟨⟨h.path, .obj (setKey m "datamodel" (.obj (setKey dm "tables"
    (.arr (ts ++ [.obj [("name", .str tn),
      ("columns", .arr (cols.getD []))]])))))⟩, ?_, ?_, rfl⟩
  · simp only [PBIRHandler.addTable, hm, hdm, hts, Option.isSome_some,
      if_true]
  · constructor
    · simp only [wfKeys, Bool.and_eq_true]
      refine ⟨keysNodupB_setKey _ _ hwf.1, wfFields_setKey hwf.2 ?_⟩
      simp only [wfKeys, Bool.and_eq_true]
      refine ⟨keysNodupB_setKey _ _ hdmwf.1, wfFields_setKey hdmwf.2 ?_⟩
      simp only [wfKeys]
      exact wfItems_append htswf (by
        simp only [wfItems, Bool.and_eq_true]
        exact ⟨htbl, trivial⟩)
    · exact ⟨_, _, _, rfl, keyFind_setKey_self .., keyFind_setKey_self ..⟩

theorem applyTables_inv (ops : List (String × Option (List JVal))) :
    ∀ h : PBIRHandler, docInv h →
    (∀ op ∈ ops, ∀ c ∈ op.2.getD [], wfKeys c = true) →
    ∃ h', applyTables h ops = some h' ∧ docInv h' ∧ h'.path = h.path := by
  induction ops with
  | nil =>
    intro h hinv _
    exact ⟨h, rfl, hinv, rfl⟩
  | cons op ops ih =>
    intro h hinv hcols
    obtain ⟨h₁, hstep, hinv₁, hpath₁⟩ := addTable_inv h op.1 op.2 hinv
      (hcols op (List.mem_cons_self ..))
    obtain ⟨h', happ, hinv', hpath'⟩ := ih h₁ hinv₁
      fun o ho => hcols o (List.mem_cons_of_mem _ ho)
    refine ⟨h', ?_, hinv', hpath'.trans hpath₁⟩
    simp only [applyTables, List.foldl_cons, Option.bind_some] at happ ⊢
    rw [show (some h).bind (fun h'' => h''.addTable op.1 op.2) = some h₁
      from by simpa using hstep]
    exact happ

/-! ## C1: the save/load round-trip -/

/-- C1: for any Document produced by `create_new` followed by any
sequence of `add_table` calls (with Python-dict columns, i.e.
distinct-key objects), a successful `save(p)` followed by constructing a
handler on `p` — which loads eagerly — yields exactly the saved Document,
field for field, for both directory-style and direct-file-style `p`. -/
theorem save_load_roundtrip (h₀ : PBIRHandler) (name desc : String)
    (ops : List (String × Option (List JVal))) (h h' : PBIRHandler)
    (p : FPath) (fs fs₁ : FS)
    (hops : ∀ op ∈ ops, ∀ c ∈ op.2.getD [], wfKeys c = true)
    (happ : applyTables (h₀.createNew name desc) ops = some h)
    (hp : p ≠ [])
    (hs : h.save (some p) fs = (.ok h', fs₁)) :
    PBIRHandler.init (some p) fs₁ = .ok ⟨some p, h.metadata⟩ := by
  obtain ⟨h'', happ', hinv'', _⟩ := applyTables_inv ops
    (h₀.createNew name desc) (createNew_inv h₀ name desc) hops
  rw [happ] at happ'
  injection happ' with he
  subst he
  have hwf : wfKeys h.metadata = true := hinv''.1
  obtain ⟨hh, sp, fs₀, hsp, hbr⟩ := save_ok_decomp h (some p) fs fs₁ h' hs
  have hspp : sp = p := by
    simp only [effTarget, Option.some.injEq] at hsp
    exact hsp.symm
  subst hspp
  rcases hbr with ⟨hsuf, hmd, hw⟩ | ⟨hsuf, hmd, hw⟩
  · have hfs₁ := writeFile_ok _ _ _ _ hw
    have hfind : fs₁.find sp = some (.file (jsonDumps h.metadata)) := by
      rw [hfs₁]
      exact FS.find_set_self ..
    simp [PBIRHandler.init, PBIRHandler.load, hfind,
      jsonLoads_jsonDumps h.metadata hwf]
  · have hfs₁ := writeFile_ok _ _ _ _ hw
    have hdirP : fs₁.find sp = some .dir := by
      rw [hfs₁, FS.find_set_ne]
      · simp only [mkdirp] at hmd
        exact mkdirpGo_dirs _ _ _ hmd sp (self_mem_prefixesOf hp)
      · intro he
        have := congrArg List.length he
        simp at this
    have hfinddef : fs₁.find (sp ++ [definitionName]) =
        some (.file (jsonDumps h.metadata)) := by
      rw [hfs₁]
      exact FS.find_set_self ..
    simp [PBIRHandler.init, PBIRHandler.load, hdirP, hfinddef,
      jsonLoads_jsonDumps h.metadata hwf]

/-- Witness for C1: the demo scenario — create a document, add a table
with one column, save it to the directory-style target `out` on an empty
filesystem, and re-construct a handler on `out`. -/
theorem save_load_roundtrip_witness :
    PBIRHandler.init (some ["out"])
      ((((applyTables ((⟨none, .obj []⟩ : PBIRHandler).createNew
      "Sales Dashboard" "demo")
      [("Sales", some [.obj [("name", .str "OrderID")]])]).getD
      ⟨none, .null⟩).save (some ["out"]) []).2) =
      .ok ⟨some ["out"], ((applyTables ((⟨none, .obj []⟩ : PBIRHandler).createNew
      "Sales Dashboard" "demo")
      [("Sales", some [.obj [("name", .str "OrderID")]])]).getD
      ⟨none, .null⟩).metadata⟩ :=
  save_load_roundtrip ⟨none, .obj []⟩ "Sales Dashboard" "demo"
    [("Sales", some [.obj [("name", .str "OrderID")]])]
    ((applyTables ((⟨none, .obj []⟩ : PBIRHandler).createNew
      "Sales Dashboard" "demo")
      [("Sales", some [.obj [("name", .str "OrderID")]])]).getD
      ⟨none, .null⟩)
    ((applyTables ((⟨none, .obj []⟩ : PBIRHandler).createNew
      "Sales Dashboard" "demo")
      [("Sales", some [.obj [("name", .str "OrderID")]])]).getD
      ⟨none, .null⟩)
    ["out"] []
    ((((applyTables ((⟨none, .obj []⟩ : PBIRHandler).createNew
      "Sales Dashboard" "demo")
      [("Sales", some [.obj [("name", .str "OrderID")]])]).getD
      ⟨none, .null⟩).save (some ["out"]) []).2)
    (by decide) rfl (by decide) rfl

/-! ## Concrete evaluations of the model -/

example : jsonDumps (.arr [.int 3, .null]) = "[\n  3,\n  null\n]" := rfl

example : jsonDumps (.obj [("a", .str "x")]) = "\x7b\n  \"a\": \"x\"\n\x7d" := rfl

example : jsonLoads "\x7b\"a\": [1, -2, null], \"b\": \"x\\n\"\x7d" =
    some (.obj [("a", .arr [.int 1, .int (-2), .null]), ("b", .str "x\n")]) :=
  rfl

example : jsonLoads "\x7b" = none := rfl

example : jsonLoads (jsonDumps (.obj [("a", .arr [.int 1, .str "t\"x"])])) =
    some (.obj [("a", .arr [.int 1, .str "t\"x"])]) := rfl

example : hasFileSuffix "out.json" = true := rfl
example : hasFileSuffix "out" = false := rfl
example : hasFileSuffix ".bashrc" = false := rfl
example : hasFileSuffix "a.b.c" = true := rfl
